import Mathlib

/-!
# Verification of the Cronos n8n node's ABI / unit-conversion utility core

Shallow embedding of `src/nodes/Cronos/utils/index.ts`, the utility
operations of `src/unnamed/part_003` (`encodeFunction`, `decodeData`) and
the special-cased dynamic-string decoders of
`src/nodes/Cronos/actions/nfts/index.ts`.

JavaScript strings are modelled as `List Char`; JS `BigInt` as `ℤ`
(with `/` and `%` as truncated division `Int.tdiv` / `Int.tmod`, matching
BigInt semantics); functions that can throw return `Option`, with `none`
standing for a thrown exception.
-/

namespace Cronos

/-- JS strings are modelled as lists of characters. -/
abbrev Str := List Char

/-- Embed a Lean string literal as a character list. -/
def str (s : String) : Str := s.data

/-! ## Character helpers -/

/-- Lowercase digit character for a value `< 16`, as produced by
`BigInt.prototype.toString(16)` (and `toString(10)` for values `< 10`). -/
def digitCharL (n : ℕ) : Char :=
  if n < 10 then Char.ofNat (48 + n) else Char.ofNat (87 + n)

/-- Value of a hexadecimal digit character (either case), `none` otherwise.
The ranges are the ASCII codes of `0`–`9`, `a`–`f`, `A`–`F`. -/
def hexCharVal? (c : Char) : Option ℕ :=
  if 48 ≤ c.toNat ∧ c.toNat ≤ 57 then some (c.toNat - 48)
  else if 97 ≤ c.toNat ∧ c.toNat ≤ 102 then some (c.toNat - 87)
  else if 65 ≤ c.toNat ∧ c.toNat ≤ 70 then some (c.toNat - 55)
  else none

/-- Value of a decimal digit character, `none` otherwise. -/
def decCharVal? (c : Char) : Option ℕ :=
  if 48 ≤ c.toNat ∧ c.toNat ≤ 57 then some (c.toNat - 48) else none

/-- Boolean test for a hexadecimal digit (the character class `[a-fA-F0-9]`). -/
def isHexDigitB (c : Char) : Bool :=
  decide ((48 ≤ c.toNat ∧ c.toNat ≤ 57) ∨ (97 ≤ c.toNat ∧ c.toNat ≤ 102) ∨
    (65 ≤ c.toNat ∧ c.toNat ≤ 70))

/-- Boolean test for a decimal digit. -/
def isDecDigitB (c : Char) : Bool := decide (48 ≤ c.toNat ∧ c.toNat ≤ 57)

/-- ASCII-range model of `String.prototype.toLowerCase` (all inputs in this
development are ASCII; `A`–`Z` are codes 65–90). -/
def jsToLowerChar (c : Char) : Char :=
  if 65 ≤ c.toNat ∧ c.toNat ≤ 90 then Char.ofNat (c.toNat + 32) else c

/-- ASCII-range model of the whitespace class trimmed by
`String.prototype.trim` (all inputs in this development are ASCII). -/
def jsWhitespaceB (c : Char) : Bool :=
  decide (c.toNat = 9 ∨ c.toNat = 10 ∨ c.toNat = 11 ∨ c.toNat = 12 ∨
    c.toNat = 13 ∨ c.toNat = 32)

/-! ## Base-`b` digits with explicit fuel (kernel-reducible) -/

/-- Little-endian base-`b` digits of `n`, with explicit fuel so that the
recursion is structural and evaluable by `decide`. -/
def digitsAux (b : ℕ) : ℕ → ℕ → List ℕ
  | 0, _ => []
  | fuel + 1, n => if n = 0 then [] else n % b :: digitsAux b fuel (n / b)

/-- Little-endian base-`b` digits of `n` (`[]` for `n = 0`). -/
def natDigitsLE (b n : ℕ) : List ℕ := digitsAux b n n

/-- Value of a little-endian digit list. -/
def ofDigitsLE (b : ℕ) : List ℕ → ℕ
  | [] => 0
  | d :: ds => d + b * ofDigitsLE b ds

/-! ## Rendering numbers as strings -/

/-- `n.toString(16)` for a non-negative BigInt: lowercase hex digits,
no leading zeros, `"0"` for zero. -/
def natToHexL (n : ℕ) : Str :=
  if n = 0 then ['0'] else (natDigitsLE 16 n).reverse.map digitCharL

/-- `n.toString()` (decimal) for a non-negative BigInt. -/
def natToDecL (n : ℕ) : Str :=
  if n = 0 then ['0'] else (natDigitsLE 10 n).reverse.map digitCharL

/-- `n.toString(16)` for a BigInt, negative values rendered with a `-` sign. -/
def intToHexL (n : ℤ) : Str :=
  if n < 0 then '-' :: natToHexL n.natAbs else natToHexL n.toNat

/-- `n.toString()` (decimal) for a BigInt. -/
def intToDecL (n : ℤ) : Str :=
  if n < 0 then '-' :: natToDecL n.natAbs else natToDecL n.toNat

/-! ## Parsing digit strings -/

/-- Parse a big-endian digit string; `none` as soon as one character is not a
digit of the base. -/
def parseDigitsAux (valOf : Char → Option ℕ) (b : ℕ) : Str → ℕ → Option ℕ
  | [], acc => some acc
  | c :: cs, acc =>
    match valOf c with
    | some d => parseDigitsAux valOf b cs (acc * b + d)
    | none => none

/-- Parse a non-empty big-endian digit string (`none` for the empty string,
matching the `SyntaxError` that `BigInt` raises on a bare prefix). -/
def parseDigits (valOf : Char → Option ℕ) (b : ℕ) (l : Str) : Option ℕ :=
  if l = [] then none else parseDigitsAux valOf b l 0

/-! ## The JS `BigInt(string)` constructor -/

/-- Model of the JS `BigInt(string)` constructor on the string forms arising
in this development: `""` is zero, a `0x`/`0X` prefix selects hexadecimal,
an optional sign precedes decimal digits, and anything unparsable throws
(`none`).  (Whitespace trimming and the `0b`/`0o` prefixes are elided: no
input in this development contains them.) -/
def jsBigIntL (l : Str) : Option ℤ :=
  if l = [] then some 0
  else if l.take 2 = ['0', 'x'] ∨ l.take 2 = ['0', 'X'] then
    (parseDigits hexCharVal? 16 (l.drop 2)).map Int.ofNat
  else if l.head? = some '-' then
    (parseDigits decCharVal? 10 (l.drop 1)).map (fun n => -(n : ℤ))
  else if l.head? = some '+' then
    (parseDigits decCharVal? 10 (l.drop 1)).map Int.ofNat
  else (parseDigits decCharVal? 10 l).map Int.ofNat

/-! ## JS string operations -/

/-- `s.padStart(n, c)` for a single pad character. -/
def padStartL (l : Str) (n : ℕ) (c : Char) : Str :=
  List.replicate (n - l.length) c ++ l

/-- `s.padEnd(n, c)` for a single pad character. -/
def padEndL (l : Str) (n : ℕ) (c : Char) : Str :=
  l ++ List.replicate (n - l.length) c

/-- `s.slice(a, b)` for `0 ≤ a ≤ b`. -/
def sliceL (l : Str) (a b : ℕ) : Str := (l.drop a).take (b - a)

/-- `s.replace('0x', '')`: remove the first occurrence of `"0x"`. -/
def replaceFirst0x : Str → Str
  | '0' :: 'x' :: rest => rest
  | c :: rest => c :: replaceFirst0x rest
  | [] => []

/-- `s.replace(/0+$/, '')`: strip trailing zero characters. -/
def trimTrailingZeros (l : Str) : Str :=
  (l.reverse.dropWhile (· = '0')).reverse

/-- `s.trim()`. -/
def jsTrim (l : Str) : Str :=
  ((l.dropWhile jsWhitespaceB).reverse.dropWhile jsWhitespaceB).reverse

/-- `s.startsWith(p)`. -/
def startsWithL (p l : Str) : Bool := l.take p.length == p

/-! ## `10 ** decimals` as an IEEE-754 double -/

/-- Fuel-based binary logarithm (kernel-reducible). -/
def log2Aux : ℕ → ℕ → ℕ
  | 0, _ => 0
  | fuel + 1, n => if n < 2 then 0 else log2Aux fuel (n / 2) + 1

/-- `⌊log₂ n⌋` for `n ≥ 1`. -/
def natLog2 (n : ℕ) : ℕ := log2Aux n n

/-- Round a natural number to the nearest IEEE-754 double
(53-bit significand, round-to-nearest, ties-to-even). -/
def roundDouble (n : ℕ) : ℕ :=
  if n < 2 ^ 53 then n
  else
    let e := natLog2 n
    let u := 2 ^ (e - 52)
    let q := n / u
    let r := n % u
    if 2 * r < u then q * u
    else if u < 2 * r then (q + 1) * u
    else if q % 2 = 0 then q * u else (q + 1) * u

/-- Model of the JS expression `BigInt(10 ** decimals)` from `weiToCro`.
`10 ** decimals` is IEEE-754 double arithmetic: the result is the double
nearest to `10 ^ decimals` (exact only for `decimals ≤ 22`), and for
`decimals ≥ 309` it overflows to `Infinity`, on which `BigInt` throws a
`RangeError` (`none`). -/
def jsPow10 (d : ℕ) : Option ℕ :=
  if d ≤ 308 then some (roundDouble (10 ^ d)) else none

/-! ## JS values

`encodeFunctionCall` receives parameter values typed
`string | number | bigint`; the `bool` branch additionally relies on JS
truthiness.  Numbers are modelled as integers (every number reaching these
functions in the claims is integral; `toString` of an integral double is its
decimal rendering). -/

inductive JSVal where
  | vStr (s : Str)
  | vNum (n : ℤ)
  | vBigInt (n : ℤ)
  | vBool (b : Bool)
deriving DecidableEq

/-- JS `toString()` coercion. -/
def jsToString : JSVal → Str
  | .vStr s => s
  | .vNum n => intToDecL n
  | .vBigInt n => intToDecL n
  | .vBool b => if b then str "true" else str "false"

/-- JS truthiness (`value ? _ : _`). -/
def jsTruthy : JSVal → Bool
  | .vStr s => !s.isEmpty
  | .vNum n => n ≠ 0
  | .vBigInt n => n ≠ 0
  | .vBool b => b

/-- The JS `BigInt(value)` conversion on a `string | number | bigint | bool`
value (`BigInt(true) = 1`, `BigInt(false) = 0`). -/
def jsBigIntOfVal : JSVal → Option ℤ
  | .vStr s => jsBigIntL s
  | .vNum n => some n
  | .vBigInt n => some n
  | .vBool b => some (if b then 1 else 0)

/-! ## `src/nodes/Cronos/utils/index.ts` -/

/-- `weiToCro(wei, decimals)`.  The source accepts `string | bigint`; the
`bigint` overload merely skips the `BigInt(wei)` parse, so the model takes the
string form (the only one the claims exercise).  `none` models a thrown
exception. -/
def weiToCro (wei : Str) (decimals : ℕ) : Option Str :=
  match jsBigIntL wei with
  | none => none
  | some weiBigInt =>
    match jsPow10 decimals with
    | none => none
    | some d =>
      let divisor : ℤ := d
      let wholePart := weiBigInt.tdiv divisor
      let fractionalPart := weiBigInt.tmod divisor
      if fractionalPart = 0 then some (intToDecL wholePart)
      else
        let fractionalStr := padStartL (intToDecL fractionalPart) decimals '0'
        let trimmedFractional := trimTrailingZeros fractionalStr
        some (intToDecL wholePart ++ '.' :: trimmedFractional)

/-- `croToWei(cro, decimals)`.  The source accepts `string | number` and
starts with `cro.toString()`; the model takes the resulting string. -/
def croToWei (cro : Str) (decimals : ℕ) : Option Str :=
  let parts := List.splitOn '.' cro
  let wholePart := parts.headD []
  let fractionalPart := (parts.drop 1).headD []
  let paddedFractional := (padEndL fractionalPart decimals '0').take decimals
  let combined := wholePart ++ paddedFractional
  (jsBigIntL combined).map intToDecL

/-- `hexToDecimal(hex)`. -/
def hexToDecimal (hex : Str) : Option Str :=
  if hex = [] ∨ hex = str "0x" then some (str "0")
  else (jsBigIntL hex).map intToDecL

/-- `decimalToHex(decimal)` on the string form of its
`string | number | bigint` input. -/
def decimalToHex (decimal : Str) : Option Str :=
  (jsBigIntL decimal).map (fun bigIntValue => '0' :: 'x' :: intToHexL bigIntValue)

/-- `padAddress(address)`. -/
def padAddress (address : Str) : Str :=
  let cleanAddress := replaceFirst0x (address.map jsToLowerChar)
  '0' :: 'x' :: padStartL cleanAddress 64 '0'

/-- `padNumber(num)`. -/
def padNumber (num : JSVal) : Option Str :=
  (jsBigIntOfVal num).map
    (fun v => '0' :: 'x' :: padStartL (intToHexL v) 64 '0')

/-- One typed parameter of `encodeFunctionCall`. -/
structure AbiParam where
  type : Str
  value : JSVal
deriving DecidableEq

/-- The body of `encodeFunctionCall`'s loop, factored out: the text appended
to `data` for one parameter (`[]` for an unrecognized type, which the source
silently skips). -/
def encodeParamCall (param : AbiParam) : Option Str :=
  if param.type = str "address" then
    some ((padAddress (jsToString param.value)).drop 2)
  else if param.type = str "uint256" ∨ param.type = str "uint" ∨
      param.type = str "int256" then
    (padNumber param.value).map (List.drop 2)
  else if param.type = str "bool" then
    (padNumber (.vNum (if jsTruthy param.value then 1 else 0))).map (List.drop 2)
  else if param.type = str "bytes32" then
    some (padEndL (replaceFirst0x (jsToString param.value)) 64 '0')
  else some []

/-- `encodeFunctionCall(functionSignature, params)`. -/
def encodeFunctionCall (functionSignature : Str) (params : List AbiParam) :
    Option Str :=
  params.foldlM (fun data param => (encodeParamCall param).map (data ++ ·))
    functionSignature

/-- `decodeUint256(hex)`. -/
def decodeUint256 (hex : Str) : Option Str :=
  if hex = [] ∨ hex = str "0x" then some (str "0")
  else (jsBigIntL hex).map intToDecL

/-- `decodeAddress(hex)`. -/
def decodeAddress (hex : Str) : Str :=
  if hex = [] ∨ hex = str "0x" then str "0x0000000000000000000000000000000000000000"
  else
    let cleanHex := replaceFirst0x hex
    '0' :: 'x' :: ((cleanHex.drop (cleanHex.length - 40)).map jsToLowerChar)

/-- `parseInt(s, 16)` on the strings arising here: after an optional
`0x`/`0X` prefix, the longest leading run of hex digits is parsed; `none`
models `NaN` (no leading digit).  (Leading whitespace and signs are elided:
no input in this development contains them.  Values `≥ 2^53` lose precision
in the double result; the model is exact, and every use below either
restricts to smaller values or only compares the result with `1`, which
rounding cannot produce from any other value.) -/
def parseIntHex (l : Str) : Option ℕ :=
  let rec go : Str → ℕ → ℕ
    | [], acc => acc
    | c :: cs, acc =>
      match hexCharVal? c with
      | some v => go cs (acc * 16 + v)
      | none => acc
  let body := if l.take 2 = str "0x" ∨ l.take 2 = str "0X" then l.drop 2 else l
  match body with
  | [] => none
  | c :: _ => if (hexCharVal? c).isSome then some (go body 0) else none

/-- The body of `decodeString`'s 2-character-stride loop: `substr(i, 2)`
yields a single character on an odd tail, and `parseInt(pair, 16)` keeps
only char codes strictly between 0 and 128. -/
def decodeStringLoop : Str → Str
  | [] => []
  | [c] =>
    match parseIntHex [c] with
    | some v => if 0 < v ∧ v < 128 then [Char.ofNat v] else []
    | none => []
  | c1 :: c2 :: rest =>
    match parseIntHex [c1, c2] with
    | some v =>
      if 0 < v ∧ v < 128 then Char.ofNat v :: decodeStringLoop rest
      else decodeStringLoop rest
    | none => decodeStringLoop rest

/-- `decodeString(hex)` (the "basic implementation" helper).  The final
`replace(/\0/g, '')` is a no-op (char code 0 is never pushed) and is elided;
`trim()` is `jsTrim`. -/
def decodeString (hex : Str) : Str :=
  if hex = [] ∨ hex = str "0x" then []
  else jsTrim (decodeStringLoop (replaceFirst0x hex))

/-- `isValidAddress(address)`: the regex `^0x[a-fA-F0-9]{40}$`. -/
def isValidAddress (address : Str) : Bool :=
  startsWithL (str "0x") address && (address.drop 2).length == 40 &&
    (address.drop 2).all isHexDigitB

/-- `isValidTxHash(hash)`: the regex `^0x[a-fA-F0-9]{64}$`. -/
def isValidTxHash (hash : Str) : Bool :=
  startsWithL (str "0x") hash && (hash.drop 2).length == 64 &&
    (hash.drop 2).all isHexDigitB

/-- `formatBlockNumber(blockNumber)`, string branch. -/
def formatBlockNumberS (blockNumber : Str) : Option Str :=
  if blockNumber = str "latest" ∨ blockNumber = str "earliest" ∨
      blockNumber = str "pending" then some blockNumber
  else if startsWithL (str "0x") blockNumber then some blockNumber
  else decimalToHex blockNumber

/-- `formatBlockNumber(blockNumber)`, number branch: `decimalToHex` applied
directly to the number (the `BigInt` conversion cannot throw). -/
def formatBlockNumberN (n : ℤ) : Str := '0' :: 'x' :: intToHexL n

/-- The per-type decoding applied to one 64-character chunk inside
`parseLogData`. -/
def decodeLogItem (type chunk : Str) : Option Str :=
  if type = str "address" then some (decodeAddress ('0' :: 'x' :: chunk))
  else if startsWithL (str "uint") type || startsWithL (str "int") type then
    decodeUint256 ('0' :: 'x' :: chunk)
  else some ('0' :: 'x' :: chunk)

/-- The indexed loop of `parseLogData`: for the `i`-th declared type, take
`cleanData.slice(i*64, (i+1)*64)` and stop (`break`) on an empty chunk. -/
def parseLogDataLoop (cleanData : Str) : List Str → ℕ → Option (List Str)
  | [], _ => some []
  | type :: types, i =>
    let chunk := (cleanData.drop (i * 64)).take 64
    if chunk = [] then some []
    else do
      let v ← decodeLogItem type chunk
      let rest ← parseLogDataLoop cleanData types (i + 1)
      pure (v :: rest)

/-- `parseLogData(data, types)`. -/
def parseLogData (data : Str) (types : List Str) : Option (List Str) :=
  if data = [] ∨ data = str "0x" then some []
  else parseLogDataLoop (replaceFirst0x data) types 0

/-! ## `src/unnamed/part_003` (utility operations) -/

/-- One parameter of the `encodeFunction` action: after
`JSON.parse(parameters)` both fields are strings. -/
structure ActionParam where
  type : Str
  value : Str
deriving DecidableEq

/-- The body of `encodeFunction`'s loop, factored out: the text appended to
`encodedData` for one parameter.  `nParams` is `params.length`, used by the
`bytes`/`string` offset words; `none` models the thrown
`Invalid address` error and a `BigInt` `SyntaxError`. -/
def encodeParamAction (nParams : ℕ) (param : ActionParam) : Option Str :=
  if param.type = str "address" then
    if isValidAddress param.value then
      some (padStartL (replaceFirst0x (param.value.map jsToLowerChar)) 64 '0')
    else none
  else if param.type = str "uint256" ∨ startsWithL (str "uint") param.type = true ∨
      startsWithL (str "int") param.type = true then
    (jsBigIntL param.value).map (fun bigIntValue => padStartL (intToHexL bigIntValue) 64 '0')
  else if param.type = str "bool" then
    some (padStartL (if param.value = str "true" ∨ param.value = str "1"
      then str "1" else str "0") 64 '0')
  else if param.type = str "bytes32" then
    some (padEndL (replaceFirst0x param.value) 64 '0')
  else if param.type = str "bytes" then
    some (padStartL (natToHexL (nParams * 32)) 64 '0')
  else if param.type = str "string" then
    some (padStartL (natToHexL (nParams * 32)) 64 '0')
  else some []

/-- `encodeFunction`'s `encodedData` accumulation (the surrounding
`JSON.parse` of the parameter list and the result envelope are elided; the
model receives the parsed parameter list). -/
def encodeFunction (functionSignature : Str) (params : List ActionParam) :
    Option Str :=
  params.foldlM
    (fun data param => (encodeParamAction params.length param).map (data ++ ·))
    functionSignature

/-- Split into consecutive chunks of at most 64 characters, with explicit
fuel so the recursion is structural: the model of
`paramData.match(/.{1,64}/g) || []`. -/
def chunkAux : ℕ → Str → List Str
  | 0, _ => []
  | fuel + 1, l => if l = [] then [] else l.take 64 :: chunkAux fuel (l.drop 64)

/-- `paramData.match(/.{1,64}/g) || []`. -/
def chunk64 (l : Str) : List Str := chunkAux l.length l

/-- One entry of `decodeData`'s `decodedValues`. -/
structure DecodedValue where
  type : Str
  raw : Str
  decoded : Str
deriving DecidableEq

/-- The per-chunk decoding inside `decodeData` (the chunk is already padded
to 64 characters). -/
def decodeDataItem (type chunk : Str) : Option Str :=
  if type = str "address" then some (decodeAddress ('0' :: 'x' :: chunk))
  else if startsWithL (str "uint") type || startsWithL (str "int") type then
    decodeUint256 ('0' :: 'x' :: chunk)
  else if type = str "bool" then
    (parseIntHex chunk).map (fun v => if v = 1 then str "true" else str "false")
  else if type = str "bytes32" then some ('0' :: 'x' :: chunk)
  else decodeUint256 ('0' :: 'x' :: chunk)

/-- `decodeData`'s loop over the chunks: `typeArray[i] || 'unknown'` falls
back to `"unknown"` for a missing (or empty, hence falsy) type. -/
def decodeDataLoop : List Str → List Str → Option (List DecodedValue)
  | [], _ => some []
  | chunk :: chunks, types => do
    let c := padEndL chunk 64 '0'
    let t0 := types.headD []
    let t := if t0 = [] then str "unknown" else t0
    let d ← decodeDataItem t c
    let rest ← decodeDataLoop chunks (types.drop 1)
    pure (⟨t, '0' :: 'x' :: c, d⟩ :: rest)

/-- `decodeData(data, typeArray)`: returns the extracted function selector
and the `decodedValues` array (the JSON/CSV parsing that produces
`typeArray` and the result envelope are elided; the model receives the
parsed type list). -/
def decodeData (data : Str) (typeArray : List Str) :
    Option (Str × List DecodedValue) :=
  let cleanData := replaceFirst0x data
  let functionSelector := if 8 ≤ cleanData.length then '0' :: 'x' :: cleanData.take 8 else []
  let paramData := if 8 ≤ cleanData.length then cleanData.drop 8 else cleanData
  (decodeDataLoop (chunk64 paramData) typeArray).map (fun vals => (functionSelector, vals))

/-! ## `src/nodes/Cronos/actions/nfts/index.ts` (dynamic-string decoders)

`Buffer.from(h, 'hex').toString('utf8')` is modelled at the byte level: the
decoders below return the byte list of the buffer (for the ASCII payloads in
the claims, the UTF-8 string has exactly one character per byte). -/

/-- `Buffer.from(hex, 'hex')`: consecutive valid hex pairs; decoding stops at
the first invalid pair, and a trailing lone character is dropped. -/
def bufferFromHex : Str → List ℕ
  | [] => []
  | [_] => []
  | c1 :: c2 :: rest =>
    match hexCharVal? c1, hexCharVal? c2 with
    | some v1, some v2 => (16 * v1 + v2) :: bufferFromHex rest
    | _, _ => []

/-- The body of the token-URI decode, on the `0x`-stripped hex string. -/
def tokenURIDecodeCore (hexStr : Str) : List ℕ :=
  if hexStr.length < 128 then []
  else
    match parseIntHex (sliceL hexStr 0 64) with
    | none => []
    | some off =>
      let offset := off * 2
      match parseIntHex (sliceL hexStr offset (offset + 64)) with
      | none => []
      | some len => bufferFromHex (sliceL hexStr (offset + 64) (offset + 64 + len * 2))

/-- The token-URI decode of `getNFTMetadata`: read the first word as a
byte-offset (`* 2` for hex characters), the word at that offset as a
byte-length, then `length * 2` hex characters as the payload.  `[]` is the
initial `tokenURI = ''` kept when a guard fails (a `NaN` from `parseInt`
also yields `''` through JS slice semantics). -/
def tokenURIDecode (result : Str) : List ℕ :=
  if result = [] ∨ result = str "0x" ∨ result.length ≤ 2 then []
  else tokenURIDecodeCore (replaceFirst0x result)

/-- The body of the name/symbol decode, on the `0x`-stripped hex string. -/
def nameSymbolDecodeCore (hexStr : Str) : List ℕ :=
  if hexStr.length < 128 then []
  else
    match parseIntHex (sliceL hexStr 64 128) with
    | none => []
    | some len =>
      (bufferFromHex (sliceL hexStr 128 (128 + len * 2))).filter (· ≠ 0)

/-- The name/symbol decode of `getNFTMetadata` / `getCollectionInfo` /
`getTokenInfo`: the byte-length is read from the second word (characters
64–128) — the offset word is never consulted — and the payload starts at
character 128; `replace(/\0/g, '')` drops zero bytes. -/
def nameSymbolDecode (result : Str) : List ℕ :=
  if result = [] ∨ result = str "0x" ∨ result.length ≤ 2 then []
  else nameSymbolDecodeCore (replaceFirst0x result)

/-- One left-zero-padded 64-character hex word, as ABI encoders emit. -/
def hexWord (n : ℕ) : Str := padStartL (natToHexL n) 64 '0'

/-- The static types recognized by `encodeFunctionCall`, paired with the
in-range condition making the appended word exactly 64 characters.  Note the
numeric types are exactly `uint256`, `uint`, `int256` — not the full
`uint*`/`int*` family. -/
def InRangeStaticCall (p : AbiParam) : Prop :=
  (p.type = str "address" ∧
    (replaceFirst0x ((jsToString p.value).map jsToLowerChar)).length ≤ 64) ∨
  ((p.type = str "uint256" ∨ p.type = str "uint" ∨ p.type = str "int256") ∧
    ∃ v : ℤ, jsBigIntOfVal p.value = some v ∧ 0 ≤ v ∧ v < 2 ^ 256) ∨
  p.type = str "bool" ∨
  (p.type = str "bytes32" ∧ (replaceFirst0x (jsToString p.value)).length ≤ 64)

/-- The static types recognized by the `encodeFunction` action path (here
`uint*`/`int*` go through `startsWith`), with the in-range condition making
the appended word exactly 64 characters. -/
def InRangeStaticAction (p : ActionParam) : Prop :=
  (p.type = str "address" ∧ isValidAddress p.value = true) ∨
  ((p.type = str "uint256" ∨ startsWithL (str "uint") p.type = true ∨
      startsWithL (str "int") p.type = true) ∧
    ∃ v : ℤ, jsBigIntL p.value = some v ∧ 0 ≤ v ∧ v < 2 ^ 256) ∨
  p.type = str "bool" ∨
  (p.type = str "bytes32" ∧ (replaceFirst0x p.value).length ≤ 64)

/-! ## Theorems -/

theorem ofDigitsLE_digitsAux (b : ℕ) (hb : 2 ≤ b) :
    ∀ fuel n, n ≤ fuel → ofDigitsLE b (digitsAux b fuel n) = n := by
  intro fuel
  induction fuel with
  | zero => intro n hn; interval_cases n; simp [digitsAux, ofDigitsLE]
  | succ fuel ih =>
    intro n hn
    by_cases h0 : n = 0
    · simp [digitsAux, h0, ofDigitsLE]
    · have hdiv : n / b ≤ fuel := by
        have : n / b < n := Nat.div_lt_self (Nat.pos_of_ne_zero h0) (by omega)
        omega
      simp only [digitsAux, h0, if_false, ofDigitsLE, ih (n / b) hdiv]
      have := Nat.mod_add_div n b
      omega

theorem ofDigitsLE_natDigitsLE (b n : ℕ) (hb : 2 ≤ b) :
    ofDigitsLE b (natDigitsLE b n) = n :=
  ofDigitsLE_digitsAux b hb n n le_rfl

theorem digitsAux_lt (b : ℕ) (hb : 2 ≤ b) :
    ∀ fuel n d, d ∈ digitsAux b fuel n → d < b := by
  intro fuel
  induction fuel with
  | zero => intro n d hd; simp [digitsAux] at hd
  | succ fuel ih =>
    intro n d hd
    by_cases h0 : n = 0
    · simp [digitsAux, h0] at hd
    · simp only [digitsAux, h0, if_false, List.mem_cons] at hd
      rcases hd with h | h
      · subst h; exact Nat.mod_lt _ (by omega)
      · exact ih _ _ h

theorem natDigitsLE_lt (b n d : ℕ) (hb : 2 ≤ b) (hd : d ∈ natDigitsLE b n) :
    d < b := digitsAux_lt b hb n n d hd

theorem digitsAux_ne_nil (b : ℕ) (fuel n : ℕ) (h0 : n ≠ 0) (hn : n ≤ fuel) :
    digitsAux b fuel n ≠ [] := by
  cases fuel with
  | zero => omega
  | succ fuel => simp [digitsAux, h0]

theorem digitsAux_length_le (b : ℕ) (hb : 2 ≤ b) :
    ∀ fuel n k, n ≤ fuel → n < b ^ k → (digitsAux b fuel n).length ≤ k := by
  intro fuel
  induction fuel with
  | zero => intro n k hn hk; interval_cases n; simp [digitsAux]
  | succ fuel ih =>
    intro n k hn hk
    by_cases h0 : n = 0
    · simp [digitsAux, h0]
    · cases k with
      | zero => simp at hk; omega
      | succ k =>
        have hdivfuel : n / b ≤ fuel := by
          have : n / b < n := Nat.div_lt_self (Nat.pos_of_ne_zero h0) (by omega)
          omega
        have hdivlt : n / b < b ^ k := by
          rw [Nat.div_lt_iff_lt_mul (by omega : 0 < b)]
          calc n < b ^ (k + 1) := hk
            _ = b ^ k * b := by ring
        simpa [digitsAux, h0] using ih (n / b) k hdivfuel hdivlt

theorem natToHexL_ne_nil (n : ℕ) : natToHexL n ≠ [] := by
  unfold natToHexL
  by_cases h0 : n = 0
  · simp [h0]
  · have := digitsAux_ne_nil 16 n n h0 le_rfl
    simp only [h0, if_false, ne_eq, List.map_eq_nil_iff, List.reverse_eq_nil_iff]
    exact this

theorem natToDecL_ne_nil (n : ℕ) : natToDecL n ≠ [] := by
  unfold natToDecL
  by_cases h0 : n = 0
  · simp [h0]
  · have := digitsAux_ne_nil 10 n n h0 le_rfl
    simp only [h0, if_false, ne_eq, List.map_eq_nil_iff, List.reverse_eq_nil_iff]
    exact this

theorem natToHexL_length_le (n k : ℕ) (hk : 1 ≤ k) (h : n < 16 ^ k) :
    (natToHexL n).length ≤ k := by
  unfold natToHexL
  by_cases h0 : n = 0
  · simpa [h0] using hk
  · simpa [h0] using digitsAux_length_le 16 (by omega) n n k le_rfl h

theorem hexCharVal?_digitCharL (d : ℕ) (hd : d < 16) :
    hexCharVal? (digitCharL d) = some d := by
  interval_cases d <;> rfl

theorem decCharVal?_digitCharL (d : ℕ) (hd : d < 10) :
    decCharVal? (digitCharL d) = some d := by
  interval_cases d <;> rfl

theorem parseDigitsAux_map (valOf : Char → Option ℕ) (b : ℕ)
    (hval : ∀ d, d < b → valOf (digitCharL d) = some d) :
    ∀ (ds : List ℕ) (acc : ℕ), (∀ d ∈ ds, d < b) →
      parseDigitsAux valOf b (ds.map digitCharL) acc =
        some (ds.foldl (fun a d => a * b + d) acc) := by
  intro ds
  induction ds with
  | nil => intro acc _; rfl
  | cons d ds ih =>
    intro acc hds
    have hd : d < b := hds d (List.mem_cons_self d ds)
    simp only [List.map_cons, parseDigitsAux, hval d hd, List.foldl_cons]
    exact ih (acc * b + d) (fun x hx => hds x (List.mem_cons_of_mem d hx))

theorem foldl_reverse_ofDigitsLE (b : ℕ) :
    ∀ ds : List ℕ, ds.reverse.foldl (fun a d => a * b + d) 0 = ofDigitsLE b ds := by
  intro ds
  induction ds with
  | nil => rfl
  | cons d ds ih =>
    simp only [List.reverse_cons, List.foldl_append, ih, List.foldl_cons,
      List.foldl_nil, ofDigitsLE]
    ring

/-- Reading back the hex rendering of `n` recovers `n`. -/
theorem parseDigits_natToHexL (n : ℕ) :
    parseDigits hexCharVal? 16 (natToHexL n) = some n := by
  unfold parseDigits natToHexL
  by_cases h0 : n = 0
  · simp [h0]; rfl
  · have hne := digitsAux_ne_nil 16 n n h0 le_rfl
    have hlt : ∀ d ∈ (natDigitsLE 16 n).reverse, d < 16 := by
      intro d hd
      exact natDigitsLE_lt 16 n d (by omega) (List.mem_reverse.mp hd)
    have hmap := parseDigitsAux_map hexCharVal? 16
      (fun d hd => hexCharVal?_digitCharL d hd) (natDigitsLE 16 n).reverse 0 hlt
    have hnil : (natDigitsLE 16 n).reverse.map digitCharL ≠ [] := by
      simp only [ne_eq, List.map_eq_nil_iff, List.reverse_eq_nil_iff]
      exact hne
    simp only [h0, if_false, hnil, hmap, foldl_reverse_ofDigitsLE,
      ofDigitsLE_natDigitsLE 16 n (by omega)]

/-- Reading back the decimal rendering of `n` recovers `n`. -/
theorem parseDigits_natToDecL (n : ℕ) :
    parseDigits decCharVal? 10 (natToDecL n) = some n := by
  unfold parseDigits natToDecL
  by_cases h0 : n = 0
  · simp [h0]; rfl
  · have hne := digitsAux_ne_nil 10 n n h0 le_rfl
    have hlt : ∀ d ∈ (natDigitsLE 10 n).reverse, d < 10 := by
      intro d hd
      exact natDigitsLE_lt 10 n d (by omega) (List.mem_reverse.mp hd)
    have hmap := parseDigitsAux_map decCharVal? 10
      (fun d hd => decCharVal?_digitCharL d hd) (natDigitsLE 10 n).reverse 0 hlt
    have hnil : (natDigitsLE 10 n).reverse.map digitCharL ≠ [] := by
      simp only [ne_eq, List.map_eq_nil_iff, List.reverse_eq_nil_iff]
      exact hne
    simp only [h0, if_false, hnil, hmap, foldl_reverse_ofDigitsLE,
      ofDigitsLE_natDigitsLE 10 n (by omega)]

/-- A string of hexadecimal digit characters parses successfully. -/
theorem parseDigitsAux_hex_isSome (l : Str) (acc : ℕ)
    (h : l.all isHexDigitB = true) :
    ∃ n, parseDigitsAux hexCharVal? 16 l acc = some n := by
  induction l generalizing acc with
  | nil => exact ⟨acc, rfl⟩
  | cons c cs ih =>
    simp only [List.all_cons, Bool.and_eq_true] at h
    have hsome : ∃ v, hexCharVal? c = some v := by
      have hc := of_decide_eq_true h.1
      unfold hexCharVal?
      rcases hc with h1 | h1 | h1
      · exact ⟨c.toNat - 48, by simp [h1]⟩
      · exact ⟨c.toNat - 87, by rw [if_neg (by omega), if_pos h1]⟩
      · exact ⟨c.toNat - 55, by rw [if_neg (by omega), if_neg (by omega), if_pos h1]⟩
    obtain ⟨v, hv⟩ := hsome
    simp only [parseDigitsAux, hv]
    exact ih _ h.2

/-- Leading zero characters do not change the parsed hex value. -/
theorem parseDigitsAux_zeros (k : ℕ) (l : Str) :
    parseDigitsAux hexCharVal? 16 (List.replicate k '0' ++ l) 0 =
      parseDigitsAux hexCharVal? 16 l 0 := by
  induction k with
  | zero => rfl
  | succ k ih => simpa [List.replicate_succ, parseDigitsAux, hexCharVal?] using ih

theorem padStartL_length (l : Str) (n : ℕ) (c : Char) (h : l.length ≤ n) :
    (padStartL l n c).length = n := by
  simp [padStartL]; omega

theorem padEndL_length (l : Str) (n : ℕ) (c : Char) (h : l.length ≤ n) :
    (padEndL l n c).length = n := by
  simp [padEndL]; omega

/-- A string of decimal digit characters parses successfully. -/
theorem parseDigitsAux_dec_isSome (l : Str) (acc : ℕ)
    (h : l.all isDecDigitB = true) :
    ∃ n, parseDigitsAux decCharVal? 10 l acc = some n := by
  induction l generalizing acc with
  | nil => exact ⟨acc, rfl⟩
  | cons c cs ih =>
    simp only [List.all_cons, Bool.and_eq_true] at h
    have hc := of_decide_eq_true h.1
    simp only [parseDigitsAux, decCharVal?, if_pos hc]
    exact ih _ h.2

/-! ## Digit-string lemmas -/

theorem isDecDigitB_digitCharL (d : ℕ) (hd : d < 10) :
    isDecDigitB (digitCharL d) = true := by
  interval_cases d <;> rfl

theorem isHexDigitB_digitCharL (d : ℕ) (hd : d < 16) :
    isHexDigitB (digitCharL d) = true := by
  interval_cases d <;> rfl

theorem natToDecL_all_dec (n : ℕ) : (natToDecL n).all isDecDigitB = true := by
  unfold natToDecL
  by_cases h0 : n = 0
  · simp [h0]; rfl
  · simp only [h0, if_false, List.all_eq_true]
    intro c hc
    obtain ⟨d, hd, rfl⟩ := List.mem_map.mp hc
    exact isDecDigitB_digitCharL d
      (natDigitsLE_lt 10 n d (by omega) (List.mem_reverse.mp hd))

theorem natToHexL_all_hex (n : ℕ) : (natToHexL n).all isHexDigitB = true := by
  unfold natToHexL
  by_cases h0 : n = 0
  · simp [h0]; rfl
  · simp only [h0, if_false, List.all_eq_true]
    intro c hc
    obtain ⟨d, hd, rfl⟩ := List.mem_map.mp hc
    exact isHexDigitB_digitCharL d
      (natDigitsLE_lt 16 n d (by omega) (List.mem_reverse.mp hd))

theorem parseDigits_hex_isSome (s : Str) (hne : s ≠ [])
    (h : s.all isHexDigitB = true) :
    ∃ n, parseDigits hexCharVal? 16 s = some n := by
  obtain ⟨n, hn⟩ := parseDigitsAux_hex_isSome s 0 h
  exact ⟨n, by simp [parseDigits, hne, hn]⟩

theorem parseDigits_dec_isSome (s : Str) (hne : s ≠ [])
    (h : s.all isDecDigitB = true) :
    ∃ n, parseDigits decCharVal? 10 s = some n := by
  obtain ⟨n, hn⟩ := parseDigitsAux_dec_isSome s 0 h
  exact ⟨n, by simp [parseDigits, hne, hn]⟩

/-- `BigInt` on a `0x`-prefixed string parses the tail as hex. -/
theorem jsBigIntL_hexPre (s : Str) :
    jsBigIntL ('0' :: 'x' :: s) = (parseDigits hexCharVal? 16 s).map Int.ofNat := by
  simp [jsBigIntL]

/-- `BigInt` on a non-empty all-decimal-digit string parses it as decimal
(this is the behaviour the `0x`-less branch of the C6 claim gets wrong). -/
theorem jsBigIntL_decStr (s : Str) (hne : s ≠ [])
    (h : s.all isDecDigitB = true) :
    jsBigIntL s = (parseDigits decCharVal? 10 s).map Int.ofNat := by
  match s, hne with
  | c :: t, _ =>
    simp only [List.all_cons, Bool.and_eq_true] at h
    have hc := of_decide_eq_true h.1
    have hx : ¬(List.take 2 (c :: t) = ['0', 'x'] ∨ List.take 2 (c :: t) = ['0', 'X']) := by
      match t with
      | [] => simp
      | c2 :: t2 =>
        have hc2 : (48 ≤ c2.toNat ∧ c2.toNat ≤ 57) := by
          have := h.2
          simp only [List.all_cons, Bool.and_eq_true] at this
          exact of_decide_eq_true this.1
        have hx1 : c2 ≠ 'x' := fun heq => absurd (heq ▸ hc2) (by decide)
        have hx2 : c2 ≠ 'X' := fun heq => absurd (heq ▸ hc2) (by decide)
        simp [hx1, hx2]
    have hminus : c ≠ '-' := fun heq => absurd (heq ▸ hc) (by decide)
    have hplus : c ≠ '+' := fun heq => absurd (heq ▸ hc) (by decide)
    unfold jsBigIntL
    rw [if_neg (by simp), if_neg hx, if_neg (by simp [hminus]),
      if_neg (by simp [hplus])]

theorem intToDecL_ofNat (n : ℕ) : intToDecL (Int.ofNat n) = natToDecL n := by
  have h : ¬ Int.ofNat n < 0 := not_lt.mpr (Int.ofNat_nonneg n)
  unfold intToDecL
  rw [if_neg h]
  simp

theorem intToHexL_ofNat (n : ℕ) : intToHexL (Int.ofNat n) = natToHexL n := by
  have h : ¬ Int.ofNat n < 0 := not_lt.mpr (Int.ofNat_nonneg n)
  unfold intToHexL
  rw [if_neg h]
  simp

theorem str0x : str "0x" = ['0', 'x'] := rfl

/-! ## Claim C3 -/

/-- C3 (code bug): the claim says `weiToCro(w, d)` is the exact integer
split with no binary floating-point rounding error for any `d`, but the
source computes the divisor as `BigInt(10 ** decimals)`, an IEEE-754 double:
at `w = 10^23`, `d = 23` the divisor is `99999999999999991611392` (the
double nearest `10^23`), so the code returns `"1.00000000000000008388608"`
where the exact-integer specification yields `"1"`. -/
theorem c3_code_bug :
    weiToCro (str "100000000000000000000000") 23 =
      some (str "1.00000000000000008388608") ∧
    jsPow10 23 = some 99999999999999991611392 ∧
    weiToCro (str "100000000000000000000000") 23 ≠ some (str "1") := by
  refine ⟨by decide, by decide, by decide⟩

/-! ## Claim C4 -/

/-- C4 (code bug): the claimed round-trip
`croToWei(weiToCro(w, d), d) == w` fails at `w = 10^23`, `d = 23` through
the same floating-point divisor: the code returns
`10^23 + 8388608`, not `w`. -/
theorem c4_code_bug :
    (weiToCro (str "100000000000000000000000") 23).bind
        (fun s => croToWei s 23) =
      some (str "100000000000000008388608") ∧
    str "100000000000000008388608" ≠ str "100000000000000000000000" := by
  refine ⟨by decide, by decide⟩

/-! ## Claim C6 -/

/-- C6 counterexample: the claim says a `0x`-less hex-digit string is parsed
as hexadecimal, so `hexToDecimal("10")` would be `"16"`; the source's
`BigInt("10")` parses decimal and returns `"10"`. -/
theorem c6_counterexample :
    hexToDecimal (str "10") = some (str "10") ∧ str "10" ≠ str "16" := by
  refine ⟨by decide, by decide⟩

/-- C6 (amended): `hexToDecimal` returns `"0"` for `""` and `"0x"`; a
`0x`-prefixed string of hex digits is parsed as an unsigned hexadecimal
integer and rendered in decimal (`"0x10" ↦ "16"`, `"0xff" ↦ "255"`); but a
prefixless digit string is parsed as decimal, not hexadecimal. -/
theorem c6_amended :
    hexToDecimal [] = some (str "0") ∧
    hexToDecimal (str "0x") = some (str "0") ∧
    hexToDecimal (str "0x10") = some (str "16") ∧
    hexToDecimal (str "0xff") = some (str "255") ∧
    (∀ s : Str, s ≠ [] → s.all isHexDigitB = true →
      ∃ n : ℕ, parseDigits hexCharVal? 16 s = some n ∧
        hexToDecimal ('0' :: 'x' :: s) = some (natToDecL n)) ∧
    (∀ s : Str, s ≠ [] → s.all isDecDigitB = true →
      ∃ n : ℕ, parseDigits decCharVal? 10 s = some n ∧
        hexToDecimal s = some (natToDecL n)) := by
  refine ⟨by decide, by decide, by decide, by decide, ?_, ?_⟩
  · intro s hne hhex
    obtain ⟨n, hn⟩ := parseDigits_hex_isSome s hne hhex
    refine ⟨n, hn, ?_⟩
    have hcond : ¬('0' :: 'x' :: s = [] ∨ '0' :: 'x' :: s = str "0x") := by
      rw [str0x]
      simp [hne]
    unfold hexToDecimal
    rw [if_neg hcond, jsBigIntL_hexPre, hn]
    simp only [Option.map_some']
    exact congrArg some (intToDecL_ofNat n)
  · intro s hne hdec
    obtain ⟨n, hn⟩ := parseDigits_dec_isSome s hne hdec
    refine ⟨n, hn, ?_⟩
    have hcond : ¬(s = [] ∨ s = str "0x") := by
      rw [str0x]
      rintro (rfl | rfl)
      · exact hne rfl
      · simp [isDecDigitB] at hdec
    unfold hexToDecimal
    rw [if_neg hcond, jsBigIntL_decStr s hne hdec, hn]
    simp only [Option.map_some']
    exact congrArg some (intToDecL_ofNat n)

/-- Closed witness for the quantified clauses of `c6_amended`. -/
theorem c6_amended_witness :
    ((str "ff" ≠ [] ∧ (str "ff").all isHexDigitB = true) ∧
      ∃ n : ℕ, parseDigits hexCharVal? 16 (str "ff") = some n ∧
        hexToDecimal ('0' :: 'x' :: str "ff") = some (natToDecL n)) ∧
    ((str "10" ≠ [] ∧ (str "10").all isDecDigitB = true) ∧
      ∃ n : ℕ, parseDigits decCharVal? 10 (str "10") = some n ∧
        hexToDecimal (str "10") = some (natToDecL n)) :=
  ⟨⟨⟨by decide, by decide⟩,
      c6_amended.2.2.2.2.1 (str "ff") (by decide) (by decide)⟩,
    ⟨⟨by decide, by decide⟩,
      c6_amended.2.2.2.2.2 (str "10") (by decide) (by decide)⟩⟩

/-! ## Claim C7 -/

/-- C7 (confirmed): for every non-negative integer `n`,
`hexToDecimal(decimalToHex(n.toString())) == n.toString()`. -/
theorem c7_roundtrip (n : ℕ) :
    (decimalToHex (natToDecL n)).bind hexToDecimal = some (natToDecL n) := by
  have h1 : jsBigIntL (natToDecL n) = some (Int.ofNat n) := by
    rw [jsBigIntL_decStr _ (natToDecL_ne_nil n) (natToDecL_all_dec n),
      parseDigits_natToDecL]
    rfl
  unfold decimalToHex
  rw [h1]
  simp only [Option.map_some', Option.some_bind, intToHexL_ofNat]
  have hcond : ¬('0' :: 'x' :: natToHexL n = [] ∨
      '0' :: 'x' :: natToHexL n = str "0x") := by
    rw [str0x]
    simp [natToHexL_ne_nil n]
  unfold hexToDecimal
  rw [if_neg hcond, jsBigIntL_hexPre, parseDigits_natToHexL]
  simp only [Option.map_some']
  exact congrArg some (intToDecL_ofNat n)

/-! ## Claim C9 -/

/-- C9 (confirmed): `decodeAddress` maps `""` and `"0x"` to the zero
address, and every 64-hex-digit word to `0x` followed by the lowercased
last 40 hex characters. -/
theorem c9_decodeAddress :
    decodeAddress [] = str "0x0000000000000000000000000000000000000000" ∧
    decodeAddress (str "0x") = str "0x0000000000000000000000000000000000000000" ∧
    (∀ s : Str, s.length = 64 → s.all isHexDigitB = true →
      decodeAddress ('0' :: 'x' :: s) =
        '0' :: 'x' :: ((s.drop 24).map jsToLowerChar)) := by
  refine ⟨by decide, by decide, ?_⟩
  intro s hlen _hhex
  have hne : s ≠ [] := by
    intro h
    rw [h] at hlen
    simp at hlen
  have hcond : ¬('0' :: 'x' :: s = [] ∨ '0' :: 'x' :: s = str "0x") := by
    rw [str0x]
    simp [hne]
  unfold decodeAddress
  rw [if_neg hcond]
  have hclean : replaceFirst0x ('0' :: 'x' :: s) = s := rfl
  rw [hclean]
  simp only [hlen]

/-- Closed witness for the quantified clause of `c9_decodeAddress`. -/
theorem c9_decodeAddress_witness :
    ((str "0000000000000000000000005C7F8A570D578ED84E63FDFA7B1EE72DEAE1AE23").length = 64 ∧
      (str "0000000000000000000000005C7F8A570D578ED84E63FDFA7B1EE72DEAE1AE23").all isHexDigitB = true) ∧
    decodeAddress ('0' :: 'x' ::
        str "0000000000000000000000005C7F8A570D578ED84E63FDFA7B1EE72DEAE1AE23") =
      '0' :: 'x' ::
        (((str "0000000000000000000000005C7F8A570D578ED84E63FDFA7B1EE72DEAE1AE23").drop 24).map
          jsToLowerChar) :=
  ⟨⟨by decide, by decide⟩,
    c9_decodeAddress.2.2 _ (by decide) (by decide)⟩

/-! ## Claim C10 -/

theorem strLatest : str "latest" = 'l' :: 'a' :: 't' :: 'e' :: 's' :: 't' :: [] := rfl

theorem strEarliest :
    str "earliest" = 'e' :: 'a' :: 'r' :: 'l' :: 'i' :: 'e' :: 's' :: 't' :: [] := rfl

theorem strPending : str "pending" = 'p' :: 'e' :: 'n' :: 'd' :: 'i' :: 'n' :: 'g' :: [] := rfl

/-- Any `0x`-prefixed string is returned unchanged by `formatBlockNumber`. -/
theorem formatBlockNumberS_0x (t : Str) :
    formatBlockNumberS ('0' :: 'x' :: t) = some ('0' :: 'x' :: t) := by
  unfold formatBlockNumberS
  rw [if_neg, if_pos]
  · rfl
  · rintro (heq | heq | heq)
    · rw [strLatest] at heq
      injection heq with h1 _
      exact absurd h1 (by decide)
    · rw [strEarliest] at heq
      injection heq with h1 _
      exact absurd h1 (by decide)
    · rw [strPending] at heq
      injection heq with h1 _
      exact absurd h1 (by decide)

/-- C10 (confirmed): `formatBlockNumber` returns the three keywords and any
`0x`-prefixed string unchanged and hex-encodes everything else, so it is
idempotent on both its string and number branches. -/
theorem c10_idempotent :
    (∀ x y : Str, formatBlockNumberS x = some y → formatBlockNumberS y = some y) ∧
    (∀ n : ℤ, formatBlockNumberS (formatBlockNumberN n) = some (formatBlockNumberN n)) := by
  constructor
  · intro x y h
    unfold formatBlockNumberS at h
    by_cases h1 : x = str "latest" ∨ x = str "earliest" ∨ x = str "pending"
    · rw [if_pos h1] at h
      obtain rfl : x = y := Option.some.inj h
      unfold formatBlockNumberS
      rw [if_pos h1]
    · rw [if_neg h1] at h
      by_cases h2 : startsWithL (str "0x") x = true
      · rw [if_pos h2] at h
        obtain rfl : x = y := Option.some.inj h
        unfold formatBlockNumberS
        rw [if_neg h1, if_pos h2]
      · rw [if_neg h2] at h
        unfold decimalToHex at h
        cases hjs : jsBigIntL x with
        | none => rw [hjs] at h; simp at h
        | some v =>
          rw [hjs] at h
          simp only [Option.map_some'] at h
          obtain rfl := Option.some.inj h
          exact formatBlockNumberS_0x _
  · intro n
    exact formatBlockNumberS_0x (intToHexL n)

/-- Closed witness for `c10_idempotent`: applying `formatBlockNumber` to its
own output on the decimal string `"12345"` is a fixed point. -/
theorem c10_idempotent_witness :
    formatBlockNumberS (str "12345") = some (str "0x3039") ∧
    formatBlockNumberS (str "0x3039") = some (str "0x3039") :=
  ⟨by decide, c10_idempotent.1 (str "12345") (str "0x3039") (by decide)⟩

/-! ## Encoding helper lemmas -/

theorem startsWithL_exists (p l : Str) (h : startsWithL p l = true) :
    ∃ r, l = p ++ r := by
  unfold startsWithL at h
  have htake : l.take p.length = p := eq_of_beq h
  refine ⟨l.drop p.length, ?_⟩
  conv_lhs => rw [← List.take_append_drop p.length l]
  rw [htake]

theorem isValidAddress_structure (a : Str) (h : isValidAddress a = true) :
    ∃ r, a = '0' :: 'x' :: r ∧ r.length = 40 ∧ r.all isHexDigitB = true := by
  unfold isValidAddress at h
  simp only [Bool.and_eq_true] at h
  obtain ⟨⟨h1, h2⟩, h3⟩ := h
  obtain ⟨r, rfl⟩ := startsWithL_exists _ _ h1
  rw [str0x] at h2 h3 ⊢
  refine ⟨r, rfl, ?_, h3⟩
  simpa using eq_of_beq h2

theorem intToHexL_nonneg (v : ℤ) (h : 0 ≤ v) : intToHexL v = natToHexL v.toNat := by
  unfold intToHexL
  rw [if_neg (not_lt.mpr h)]

/-- The text appended for a `bool` parameter by `encodeFunctionCall`'s loop:
JS truthiness decides between the words for 1 and 0. -/
theorem encodeParamCall_bool (v : JSVal) :
    encodeParamCall ⟨str "bool", v⟩ =
      some (padStartL [if jsTruthy v then '1' else '0'] 64 '0') := by
  cases htr : jsTruthy v <;>
    simp only [encodeParamCall, htr] <;> rfl

/-- The text appended for a `bool` parameter by `encodeFunction`'s loop:
only the strings `"true"` and `"1"` yield the word for 1. -/
theorem encodeParamAction_bool (nParams : ℕ) (v : Str) :
    encodeParamAction nParams ⟨str "bool", v⟩ =
      some (padStartL (if v = str "true" ∨ v = str "1"
        then str "1" else str "0") 64 '0') := rfl

/-- Evaluation of the encode fold when every per-parameter text is produced:
the output is the accumulator followed by the texts in parameter order. -/
theorem foldlM_encode_append {α : Type} (f : α → Option Str) :
    ∀ (params : List α) (acc : Str), (∀ p ∈ params, (f p).isSome = true) →
      params.foldlM (fun data p => (f p).map (data ++ ·)) acc =
        some (acc ++ (params.map (fun p => (f p).getD [])).join) := by
  intro params
  induction params with
  | nil => intro acc _; simp
  | cons p ps ih =>
    intro acc hall
    obtain ⟨w, hw⟩ := Option.isSome_iff_exists.mp (hall p (List.mem_cons_self p ps))
    have hrest := ih (acc ++ w) (fun q hq => hall q (List.mem_cons_of_mem p hq))
    simp only [List.foldlM_cons, hw, Option.map_some', Option.bind_eq_bind,
      Option.some_bind, hrest, List.map_cons, List.join_cons, Option.getD_some,
      List.append_assoc]

theorem join_length_64 (ws : List Str) (h : ∀ w ∈ ws, w.length = 64) :
    ws.join.length = 64 * ws.length := by
  induction ws with
  | nil => simp
  | cons w ws ih =>
    simp only [List.join_cons, List.length_append, List.length_cons,
      h w (List.mem_cons_self w ws),
      ih (fun x hx => h x (List.mem_cons_of_mem w hx))]
    ring

/-- Each in-range recognized parameter makes `encodeFunctionCall`'s loop
append exactly one 64-character word. -/
theorem encodeParamCall_word (p : AbiParam) (h : InRangeStaticCall p) :
    ∃ w, encodeParamCall p = some w ∧ w.length = 64 := by
  obtain ⟨t, v⟩ := p
  rcases h with ⟨ht, hlen⟩ | ⟨ht, ⟨n, hn, hn0, hn256⟩⟩ | ht | ⟨ht, hlen⟩
  · dsimp only at ht hlen
    subst ht
    refine ⟨padStartL (replaceFirst0x ((jsToString v).map jsToLowerChar)) 64 '0',
      ?_, padStartL_length _ 64 '0' hlen⟩
    unfold encodeParamCall
    rw [if_pos rfl]
    rfl
  · dsimp only at ht hn
    have hlen64 : (intToHexL n).length ≤ 64 := by
      rw [intToHexL_nonneg n hn0]
      refine natToHexL_length_le _ 64 (by omega) ?_
      have hlt : (n.toNat : ℤ) < 2 ^ 256 := by rwa [Int.toNat_of_nonneg hn0]
      have hlt2 : n.toNat < 2 ^ 256 := by exact_mod_cast hlt
      calc n.toNat < 2 ^ 256 := hlt2
        _ = 16 ^ 64 := by norm_num
    refine ⟨padStartL (intToHexL n) 64 '0', ?_, padStartL_length _ 64 '0' hlen64⟩
    have htne : ¬ t = str "address" := by
      rcases ht with rfl | rfl | rfl <;> decide
    unfold encodeParamCall
    rw [if_neg htne, if_pos ht]
    simp [padNumber, hn]
  · dsimp only at ht
    subst ht
    refine ⟨padStartL [if jsTruthy v then '1' else '0'] 64 '0',
      encodeParamCall_bool v, padStartL_length _ 64 '0' (by simp)⟩
  · dsimp only at ht hlen
    subst ht
    refine ⟨padEndL (replaceFirst0x (jsToString v)) 64 '0', ?_,
      padEndL_length _ 64 '0' hlen⟩
    have ha : ¬ (str "bytes32" = str "address") := by decide
    have hu : ¬ (str "bytes32" = str "uint256" ∨ str "bytes32" = str "uint" ∨
        str "bytes32" = str "int256") := by decide
    have hb : ¬ (str "bytes32" = str "bool") := by decide
    unfold encodeParamCall
    rw [if_neg ha, if_neg hu, if_neg hb, if_pos rfl]

theorem strAddress :
    str "address" = 'a' :: 'd' :: 'd' :: 'r' :: 'e' :: 's' :: 's' :: [] := rfl

theorem intToHexL_length_le_64 (n : ℤ) (h0 : 0 ≤ n) (h256 : n < 2 ^ 256) :
    (intToHexL n).length ≤ 64 := by
  rw [intToHexL_nonneg n h0]
  refine natToHexL_length_le _ 64 (by omega) ?_
  have hlt : (n.toNat : ℤ) < 2 ^ 256 := by rwa [Int.toNat_of_nonneg h0]
  have hlt2 : n.toNat < 2 ^ 256 := by exact_mod_cast hlt
  calc n.toNat < 2 ^ 256 := hlt2
    _ = 16 ^ 64 := by norm_num

/-- Each in-range recognized parameter makes `encodeFunction`'s loop append
exactly one 64-character word. -/
theorem encodeParamAction_word (nParams : ℕ) (p : ActionParam)
    (h : InRangeStaticAction p) :
    ∃ w, encodeParamAction nParams p = some w ∧ w.length = 64 := by
  obtain ⟨t, v⟩ := p
  rcases h with ⟨ht, hva⟩ | ⟨ht, ⟨n, hn, hn0, hn256⟩⟩ | ht | ⟨ht, hlen⟩
  · dsimp only at ht hva
    subst ht
    obtain ⟨r, rfl, hr40, -⟩ := isValidAddress_structure v hva
    have hmap : ('0' :: 'x' :: r).map jsToLowerChar =
        '0' :: 'x' :: (r.map jsToLowerChar) := rfl
    refine ⟨padStartL (replaceFirst0x (('0' :: 'x' :: r).map jsToLowerChar)) 64 '0',
      ?_, ?_⟩
    · unfold encodeParamAction
      rw [if_pos rfl, if_pos hva]
    · rw [hmap]
      have hclean : replaceFirst0x ('0' :: 'x' :: (r.map jsToLowerChar)) =
          r.map jsToLowerChar := rfl
      rw [hclean]
      exact padStartL_length _ 64 '0' (by simp [hr40])
  · dsimp only at ht hn
    have htne : ¬ t = str "address" := by
      rcases ht with rfl | hsw | hsw
      · decide
      · obtain ⟨r, rfl⟩ := startsWithL_exists _ _ hsw
        intro heq
        have h2 : 'u' :: 'i' :: 'n' :: 't' :: r =
            'a' :: 'd' :: 'd' :: 'r' :: 'e' :: 's' :: 's' :: [] := by
          rw [← strAddress]; exact heq
        injection h2 with h3 _
        exact absurd h3 (by decide)
      · obtain ⟨r, rfl⟩ := startsWithL_exists _ _ hsw
        intro heq
        have h2 : 'i' :: 'n' :: 't' :: r =
            'a' :: 'd' :: 'd' :: 'r' :: 'e' :: 's' :: 's' :: [] := by
          rw [← strAddress]; exact heq
        injection h2 with h3 _
        exact absurd h3 (by decide)
    refine ⟨padStartL (intToHexL n) 64 '0', ?_,
      padStartL_length _ 64 '0' (intToHexL_length_le_64 n hn0 hn256)⟩
    unfold encodeParamAction
    rw [if_neg htne, if_pos ht, hn]
    rfl
  · dsimp only at ht
    subst ht
    refine ⟨_, encodeParamAction_bool nParams v, padStartL_length _ 64 '0' ?_⟩
    by_cases hc : v = str "true" ∨ v = str "1" <;> simp [hc] <;> decide
  · dsimp only at ht hlen
    subst ht
    refine ⟨padEndL (replaceFirst0x v) 64 '0', ?_, padEndL_length _ 64 '0' hlen⟩
    have ha : ¬ (str "bytes32" = str "address") := by decide
    have hu : ¬ (str "bytes32" = str "uint256" ∨
        startsWithL (str "uint") (str "bytes32") = true ∨
        startsWithL (str "int") (str "bytes32") = true) := by decide
    have hb : ¬ (str "bytes32" = str "bool") := by decide
    unfold encodeParamAction
    rw [if_neg ha, if_neg hu, if_neg hb, if_pos rfl]

/-! ## Claim C5 -/

/-- C5 counterexample: the claim says the string `"false"` encodes to the
zero word, but `encodeFunctionCall`'s `param.value ? 1 : 0` uses JS
truthiness, under which the non-empty string `"false"` is true: the word
for 1 is emitted. -/
theorem c5_counterexample :
    encodeFunctionCall (str "0x") [⟨str "bool", JSVal.vStr (str "false")⟩] =
      some (str "0x0000000000000000000000000000000000000000000000000000000000000001") ∧
    str "0x0000000000000000000000000000000000000000000000000000000000000001" ≠
      str "0x0000000000000000000000000000000000000000000000000000000000000000" :=
  ⟨by decide, by decide⟩

/-- C5 (amended): for a `bool` parameter, `encodeFunctionCall` emits the
word for 1 exactly when the value is JS-truthy — so `true`, `1`, `"1"`,
`"true"`, but also every other non-empty string including `"false"` and
`"0"` — and the word for 0 otherwise; the `encodeFunction` action path
(whose values are strings) emits the word for 1 exactly for the strings
`"true"` and `"1"`, as the claim describes. -/
theorem c5_amended :
    (∀ v : JSVal, encodeParamCall ⟨str "bool", v⟩ =
      some (padStartL [if jsTruthy v then '1' else '0'] 64 '0')) ∧
    (∀ (sel : Str) (v : JSVal), encodeFunctionCall sel [⟨str "bool", v⟩] =
      some (sel ++ padStartL [if jsTruthy v then '1' else '0'] 64 '0')) ∧
    jsTruthy (.vStr (str "false")) = true ∧
    jsTruthy (.vStr (str "0")) = true ∧
    jsTruthy (.vStr (str "true")) = true ∧
    jsTruthy (.vStr (str "1")) = true ∧
    jsTruthy (.vStr []) = false ∧
    jsTruthy (.vNum 1) = true ∧
    jsTruthy (.vNum 0) = false ∧
    jsTruthy (.vBool true) = true ∧
    jsTruthy (.vBool false) = false ∧
    (∀ (nParams : ℕ) (v : Str), encodeParamAction nParams ⟨str "bool", v⟩ =
      some (padStartL (if v = str "true" ∨ v = str "1"
        then str "1" else str "0") 64 '0')) ∧
    (∀ (sel : Str) (v : Str), encodeFunction sel [⟨str "bool", v⟩] =
      some (sel ++ padStartL (if v = str "true" ∨ v = str "1"
        then str "1" else str "0") 64 '0')) := by
  refine ⟨fun v => encodeParamCall_bool v, ?_, by decide, by decide, by decide,
    by decide, by decide, by decide, by decide, by decide, by decide,
    fun nParams v => encodeParamAction_bool nParams v, ?_⟩
  · intro sel v
    simp [encodeFunctionCall, List.foldlM, encodeParamCall_bool]
  · intro sel v
    simp [encodeFunction, List.foldlM, encodeParamAction_bool]

/-! ## Claim C1 -/

/-- C1 counterexample: the claim includes the whole `uint*`/`int*` family
among the types `encodeFunctionCall` encodes, but the utility only matches
`uint256`, `uint` and `int256` exactly: a `uint8` parameter is silently
skipped and no word is appended (output has 10 characters, not 74). -/
theorem c1_counterexample :
    encodeFunctionCall (str "0x70a08231") [⟨str "uint8", JSVal.vNum 1⟩] =
      some (str "0x70a08231") ∧
    (encodeFunctionCall (str "0x70a08231") [⟨str "uint8", JSVal.vNum 1⟩]).map
        List.length = some 10 ∧
    (10 : ℕ) ≠ 10 + 64 :=
  ⟨by decide, by decide, by decide⟩

/-- C1 (amended): restricted to the types each path actually recognizes —
`address`, `uint256`/`uint`/`int256` (not the full `uint*`/`int*` family),
`bool`, `bytes32` for `encodeFunctionCall`; `address`, `uint256`/`uint*`/
`int*`, `bool`, `bytes32` for the `encodeFunction` action path — with
in-range values, each parameter appends exactly one 64-hex-character word in
parameter order, so the output is the selector followed by `64·N`
characters; in particular the `balanceOf(address)` example holds. -/
theorem c1_amended :
    (∀ (sel : Str) (params : List AbiParam), (∀ p ∈ params, InRangeStaticCall p) →
      encodeFunctionCall sel params =
        some (sel ++ (params.map (fun p => (encodeParamCall p).getD [])).join) ∧
      (∀ p ∈ params, ((encodeParamCall p).getD []).length = 64) ∧
      (encodeFunctionCall sel params).map List.length =
        some (sel.length + 64 * params.length)) ∧
    (∀ (sel : Str) (params : List ActionParam),
      (∀ p ∈ params, InRangeStaticAction p) →
      encodeFunction sel params =
        some (sel ++ (params.map
          (fun p => (encodeParamAction params.length p).getD [])).join) ∧
      (∀ p ∈ params, ((encodeParamAction params.length p).getD []).length = 64) ∧
      (encodeFunction sel params).map List.length =
        some (sel.length + 64 * params.length)) ∧
    encodeFunctionCall (str "0x70a08231")
        [⟨str "address", .vStr (str "0x5C7F8A570d578ED84E63fdFA7b1eE72dEae1AE23")⟩] =
      some (str "0x70a082310000000000000000000000005c7f8a570d578ed84e63fdfa7b1ee72deae1ae23") ∧
    (str "0x70a082310000000000000000000000005c7f8a570d578ed84e63fdfa7b1ee72deae1ae23").length
      = 74 := by
  refine ⟨?_, ?_, by decide, by decide⟩
  · intro sel params hall
    have hsome : ∀ p ∈ params, (encodeParamCall p).isSome = true := by
      intro p hp
      obtain ⟨w, hw, -⟩ := encodeParamCall_word p (hall p hp)
      simp [hw]
    have hlen : ∀ p ∈ params, ((encodeParamCall p).getD []).length = 64 := by
      intro p hp
      obtain ⟨w, hw, hl⟩ := encodeParamCall_word p (hall p hp)
      simp [hw, hl]
    have henc : encodeFunctionCall sel params =
        some (sel ++ (params.map (fun p => (encodeParamCall p).getD [])).join) :=
      foldlM_encode_append encodeParamCall params sel hsome
    refine ⟨henc, hlen, ?_⟩
    rw [henc]
    simp only [Option.map_some', List.length_append, Option.some.injEq]
    rw [join_length_64]
    · simp
    · intro w hw
      obtain ⟨p, hp, rfl⟩ := List.mem_map.mp hw
      exact hlen p hp
  · intro sel params hall
    have hsome : ∀ p ∈ params, (encodeParamAction params.length p).isSome = true := by
      intro p hp
      obtain ⟨w, hw, -⟩ := encodeParamAction_word params.length p (hall p hp)
      simp [hw]
    have hlen : ∀ p ∈ params,
        ((encodeParamAction params.length p).getD []).length = 64 := by
      intro p hp
      obtain ⟨w, hw, hl⟩ := encodeParamAction_word params.length p (hall p hp)
      simp [hw, hl]
    have henc : encodeFunction sel params =
        some (sel ++ (params.map
          (fun p => (encodeParamAction params.length p).getD [])).join) :=
      foldlM_encode_append (encodeParamAction params.length) params sel hsome
    refine ⟨henc, hlen, ?_⟩
    rw [henc]
    simp only [Option.map_some', List.length_append, Option.some.injEq]
    rw [join_length_64]
    · simp
    · intro w hw
      obtain ⟨p, hp, rfl⟩ := List.mem_map.mp hw
      exact hlen p hp

set_option maxRecDepth 4000 in
/-- Closed witness for the quantified clauses of `c1_amended`: the
`balanceOf(address)` call on the utility path and a `uint8` parameter on
the action path (where `startsWith('uint')` does match). -/
theorem c1_amended_witness :
    InRangeStaticCall
      ⟨str "address", .vStr (str "0x5C7F8A570d578ED84E63fdFA7b1eE72dEae1AE23")⟩ ∧
    InRangeStaticAction ⟨str "uint8", str "255"⟩ ∧
    (encodeFunctionCall (str "0x70a08231")
        [⟨str "address", .vStr (str "0x5C7F8A570d578ED84E63fdFA7b1eE72dEae1AE23")⟩]).map
      List.length = some ((str "0x70a08231").length + 64 * 1) ∧
    (encodeFunction (str "0x2e64cec1") [⟨str "uint8", str "255"⟩]).map
      List.length = some ((str "0x2e64cec1").length + 64 * 1) := by
  have h1 : InRangeStaticCall
      ⟨str "address", .vStr (str "0x5C7F8A570d578ED84E63fdFA7b1eE72dEae1AE23")⟩ :=
    Or.inl ⟨rfl, by decide⟩
  have h2 : InRangeStaticAction ⟨str "uint8", str "255"⟩ :=
    Or.inr (Or.inl ⟨Or.inr (Or.inl (by decide)), 255, by decide, by decide, by decide⟩)
  refine ⟨h1, h2, ?_, ?_⟩
  · exact (c1_amended.1 (str "0x70a08231") _
      (by intro p hp; rw [List.mem_singleton] at hp; rw [hp]; exact h1)).2.2
  · exact (c1_amended.2.1 (str "0x2e64cec1") _
      (by intro p hp; rw [List.mem_singleton] at hp; rw [hp]; exact h2)).2.2

/-! ## Chunking lemmas for `decodeData` -/

theorem chunkAux_getElem? :
    ∀ (fuel : ℕ) (l : Str) (i : ℕ), l.length ≤ fuel →
      (chunkAux fuel l)[i]? =
        if 64 * i < l.length then some ((l.drop (64 * i)).take 64) else none := by
  intro fuel
  induction fuel with
  | zero =>
    intro l i hl
    have : l = [] := List.eq_nil_of_length_eq_zero (by omega)
    subst this
    simp [chunkAux]
  | succ fuel ih =>
    intro l i hl
    by_cases hnil : l = []
    · subst hnil
      simp [chunkAux]
    · have hpos : 0 < l.length := List.length_pos.mpr hnil
      have hdrop : (l.drop 64).length ≤ fuel := by
        simp only [List.length_drop]
        omega
      cases i with
      | zero =>
        simp [chunkAux, hnil, hpos]
      | succ i =>
        simp only [chunkAux, hnil, if_false, List.getElem?_cons_succ, ih _ i hdrop,
          List.length_drop, List.drop_drop]
        have harith : 64 + 64 * i = 64 * (i + 1) := by ring
        rw [harith]
        by_cases hc : 64 * (i + 1) < l.length
        · rw [if_pos (by omega), if_pos hc]
        · rw [if_neg (by omega), if_neg hc]

theorem chunk64_getElem? (l : Str) (i : ℕ) :
    (chunk64 l)[i]? =
      if 64 * i < l.length then some ((l.drop (64 * i)).take 64) else none :=
  chunkAux_getElem? l.length l i le_rfl

theorem chunkAux_length :
    ∀ (fuel : ℕ) (l : Str), l.length ≤ fuel →
      (chunkAux fuel l).length = (l.length + 63) / 64 := by
  intro fuel
  induction fuel with
  | zero =>
    intro l hl
    have : l = [] := List.eq_nil_of_length_eq_zero (by omega)
    subst this
    simp [chunkAux]
  | succ fuel ih =>
    intro l hl
    by_cases hnil : l = []
    · subst hnil
      simp [chunkAux]
    · have hpos : 0 < l.length := List.length_pos.mpr hnil
      have hdrop : (l.drop 64).length ≤ fuel := by
        simp only [List.length_drop]
        omega
      simp only [chunkAux, hnil, if_false, List.length_cons, ih _ hdrop,
        List.length_drop]
      omega

theorem chunk64_length (l : Str) : (chunk64 l).length = (l.length + 63) / 64 :=
  chunkAux_length l.length l le_rfl

/-! ## Success of the per-chunk decoders on hex data -/

theorem hexCharVal?_isSome (c : Char) (h : isHexDigitB c = true) :
    ∃ v, hexCharVal? c = some v := by
  have hc := of_decide_eq_true h
  unfold hexCharVal?
  rcases hc with h1 | h1 | h1
  · exact ⟨c.toNat - 48, by simp [h1]⟩
  · exact ⟨c.toNat - 87, by rw [if_neg (by omega), if_pos h1]⟩
  · exact ⟨c.toNat - 55, by rw [if_neg (by omega), if_neg (by omega), if_pos h1]⟩

theorem hex_ne_x (c : Char) (h : isHexDigitB c = true) : c ≠ 'x' ∧ c ≠ 'X' := by
  have hc := of_decide_eq_true h
  constructor <;> rintro rfl <;> revert hc <;> decide

/-- A string of hex digits never carries the `0x`/`0X` prefix that
`parseInt(_, 16)` would strip. -/
theorem str0X : str "0X" = ['0', 'X'] := rfl

theorem take2_ne_0x (l : Str) (h : l.all isHexDigitB = true) :
    ¬(l.take 2 = str "0x" ∨ l.take 2 = str "0X") := by
  rw [str0x, str0X]
  match l with
  | [] => simp
  | [c] => simp
  | c1 :: c2 :: r =>
    simp only [List.all_cons, Bool.and_eq_true] at h
    have h2 := hex_ne_x c2 h.2.1
    simp [h2.1, h2.2]

theorem all_hex_drop (l : Str) (n : ℕ) (h : l.all isHexDigitB = true) :
    (l.drop n).all isHexDigitB = true := by
  rw [List.all_eq_true] at h ⊢
  exact fun c hc => h c (List.mem_of_mem_drop hc)

theorem all_hex_take (l : Str) (n : ℕ) (h : l.all isHexDigitB = true) :
    (l.take n).all isHexDigitB = true := by
  rw [List.all_eq_true] at h ⊢
  exact fun c hc => h c (List.mem_of_mem_take hc)

theorem padEndL_all_hex (l : Str) (n : ℕ) (h : l.all isHexDigitB = true) :
    (padEndL l n '0').all isHexDigitB = true := by
  unfold padEndL
  rw [List.all_append, h, Bool.true_and, List.all_eq_true]
  intro c hc
  rw [List.eq_of_mem_replicate hc]
  decide

theorem padEndL_ne_nil (l : Str) (h : l ≠ []) : padEndL l 64 '0' ≠ [] := by
  unfold padEndL
  simp [h]

/-- `parseInt(c, 16)` succeeds on a non-empty string of hex digits. -/
theorem parseIntHex_hex_isSome (l : Str) (hne : l ≠ [])
    (h : l.all isHexDigitB = true) : ∃ n, parseIntHex l = some n := by
  unfold parseIntHex
  rw [if_neg (take2_ne_0x l h)]
  match l, hne with
  | c :: cs, _ =>
    simp only [List.all_cons, Bool.and_eq_true] at h
    obtain ⟨v, hv⟩ := hexCharVal?_isSome c h.1
    exact ⟨parseIntHex.go (c :: cs) 0, by simp [hv]⟩

/-- `decodeUint256` succeeds on `0x` + a non-empty string of hex digits. -/
theorem decodeUint256_hex_isSome (c : Str) (hne : c ≠ [])
    (h : c.all isHexDigitB = true) :
    ∃ n : ℕ, decodeUint256 ('0' :: 'x' :: c) = some (natToDecL n) := by
  obtain ⟨n, hn⟩ := parseDigits_hex_isSome c hne h
  refine ⟨n, ?_⟩
  have hcond : ¬('0' :: 'x' :: c = [] ∨ '0' :: 'x' :: c = str "0x") := by
    rw [str0x]
    simp [hne]
  unfold decodeUint256
  rw [if_neg hcond, jsBigIntL_hexPre, hn]
  simp only [Option.map_some']
  exact congrArg some (intToDecL_ofNat n)

/-- `parseLogData`'s per-chunk decoding succeeds on a non-empty hex chunk. -/
theorem decodeLogItem_isSome (t c : Str) (hne : c ≠ [])
    (h : c.all isHexDigitB = true) : ∃ v, decodeLogItem t c = some v := by
  unfold decodeLogItem
  by_cases h1 : t = str "address"
  · exact ⟨_, by rw [if_pos h1]⟩
  · rw [if_neg h1]
    by_cases h2 : (startsWithL (str "uint") t || startsWithL (str "int") t) = true
    · rw [if_pos h2]
      obtain ⟨n, hn⟩ := decodeUint256_hex_isSome c hne h
      exact ⟨_, hn⟩
    · rw [if_neg h2]
      exact ⟨_, rfl⟩

/-- `decodeData`'s per-chunk decoding succeeds on a non-empty hex chunk. -/
theorem decodeDataItem_isSome (t c : Str) (hne : c ≠ [])
    (h : c.all isHexDigitB = true) : ∃ v, decodeDataItem t c = some v := by
  unfold decodeDataItem
  by_cases h1 : t = str "address"
  · exact ⟨_, by rw [if_pos h1]⟩
  · rw [if_neg h1]
    by_cases h2 : (startsWithL (str "uint") t || startsWithL (str "int") t) = true
    · rw [if_pos h2]
      obtain ⟨n, hn⟩ := decodeUint256_hex_isSome c hne h
      exact ⟨_, hn⟩
    · rw [if_neg h2]
      by_cases h3 : t = str "bool"
      · rw [if_pos h3]
        obtain ⟨n, hn⟩ := parseIntHex_hex_isSome c hne h
        exact ⟨_, by rw [hn]; rfl⟩
      · rw [if_neg h3]
        by_cases h4 : t = str "bytes32"
        · exact ⟨_, by rw [if_pos h4]⟩
        · rw [if_neg h4]
          obtain ⟨n, hn⟩ := decodeUint256_hex_isSome c hne h
          exact ⟨_, hn⟩

/-- For a missing type, `decodeData` falls back to unsigned-integer
decoding. -/
theorem decodeDataItem_unknown (c : Str) :
    decodeDataItem (str "unknown") c = decodeUint256 ('0' :: 'x' :: c) := rfl

/-- Full characterization of `decodeData`'s loop on hex chunks: one decoded
value per chunk (the trailing partial chunk is right-padded, never dropped),
with the positional type falling back to `"unknown"`. -/
theorem decodeDataLoop_spec :
    ∀ (chunks types : List Str),
      (∀ ch ∈ chunks, ch ≠ [] ∧ ch.all isHexDigitB = true) →
      ∃ vals, decodeDataLoop chunks types = some vals ∧
        vals.length = chunks.length ∧
        ∀ (i : ℕ) (ch : Str), chunks[i]? = some ch →
          ∃ dv : DecodedValue, vals[i]? = some dv ∧
            dv.raw = '0' :: 'x' :: padEndL ch 64 '0' ∧
            dv.type = (if (types[i]?).getD ([] : Str) = [] then str "unknown"
              else (types[i]?).getD ([] : Str)) ∧
            decodeDataItem dv.type (padEndL ch 64 '0') = some dv.decoded := by
  intro chunks
  induction chunks with
  | nil =>
    intro types _
    exact ⟨[], rfl, rfl, by intro i ch h; simp at h⟩
  | cons chunk chunks ih =>
    intro types hall
    obtain ⟨hne, hhex⟩ := hall chunk (List.mem_cons_self chunk chunks)
    obtain ⟨d, hd⟩ := decodeDataItem_isSome
      (if types.headD [] = [] then str "unknown" else types.headD [])
      (padEndL chunk 64 '0') (padEndL_ne_nil chunk hne) (padEndL_all_hex chunk 64 hhex)
    obtain ⟨vals, hvals, hlen, hidx⟩ :=
      ih (types.drop 1) (fun ch hch => hall ch (List.mem_cons_of_mem _ hch))
    refine ⟨⟨if types.headD [] = [] then str "unknown" else types.headD [],
        '0' :: 'x' :: padEndL chunk 64 '0', d⟩ :: vals, ?_, by simp [hlen], ?_⟩
    · simp only [decodeDataLoop]
      rw [hd, hvals]
      rfl
    · intro i ch hch
      cases i with
      | zero =>
        simp only [List.getElem?_cons_zero, Option.some.injEq] at hch
        subst hch
        refine ⟨⟨if types.headD [] = [] then str "unknown" else types.headD [],
          '0' :: 'x' :: padEndL chunk 64 '0', d⟩, by simp, rfl, ?_, hd⟩
        cases types <;> simp
      | succ i =>
        simp only [List.getElem?_cons_succ] at hch ⊢
        obtain ⟨dv, hdv, hraw, htype, hdec⟩ := hidx i ch hch
        have hdropidx : (types.drop 1)[i]? = types[i + 1]? := by
          rw [List.getElem?_drop, Nat.add_comm]
        rw [hdropidx] at htype
        exact ⟨dv, hdv, hraw, htype, hdec⟩

/-- Full characterization of `parseLogData`'s loop on hex data: one decoded
value per declared type while 64-character strides remain (a trailing
partial stride is passed to the decoder unpadded; strides beyond the
declared types are never visited). -/
theorem parseLogDataLoop_spec (clean : Str) (hhex : clean.all isHexDigitB = true) :
    ∀ (types : List Str) (i : ℕ),
      ∃ vals, parseLogDataLoop clean types i = some vals ∧
        vals.length = min types.length ((clean.length + 63) / 64 - i) ∧
        ∀ (j : ℕ) (t : Str), types[j]? = some t → 64 * (i + j) < clean.length →
          ∃ v, vals[j]? = some v ∧
            decodeLogItem t ((clean.drop ((i + j) * 64)).take 64) = some v := by
  intro types
  induction types with
  | nil =>
    intro i
    exact ⟨[], rfl, by simp, by intro j t h; simp at h⟩
  | cons t ts ih =>
    intro i
    by_cases hchunk : (clean.drop (i * 64)).take 64 = []
    · have hle : clean.length ≤ i * 64 := by
        rcases List.take_eq_nil_iff.mp hchunk with h64 | hdrop
        · omega
        · have := List.drop_eq_nil_iff_le.mp hdrop
          omega
      refine ⟨[], by simp [parseLogDataLoop, hchunk], ?_, ?_⟩
      · simp only [List.length_nil]
        omega
      · intro j t' _ hlt
        exfalso
        have h1 : 64 * i ≤ 64 * (i + j) := by omega
        omega
    · have hlen_gt : i * 64 < clean.length := by
        by_contra hcon
        apply hchunk
        have hdrop : clean.drop (i * 64) = [] :=
          List.drop_eq_nil_iff_le.mpr (by omega)
        rw [hdrop]
        rfl
      obtain ⟨v, hv⟩ := decodeLogItem_isSome t _ hchunk
        (all_hex_take _ _ (all_hex_drop _ _ hhex))
      obtain ⟨vals, hvals, hlen, hidx⟩ := ih (i + 1)
      refine ⟨v :: vals, ?_, ?_, ?_⟩
      · simp [parseLogDataLoop, hchunk, hv, hvals]
      · simp only [List.length_cons, hlen]
        have hceil : i + 1 ≤ (clean.length + 63) / 64 := by omega
        omega
      · intro j t' hj hlt
        cases j with
        | zero =>
          simp only [List.getElem?_cons_zero, Option.some.injEq] at hj
          subst hj
          exact ⟨v, by simp, by simpa using hv⟩
        | succ j =>
          simp only [List.getElem?_cons_succ] at hj ⊢
          obtain ⟨v', hv', hd'⟩ := hidx j t' hj (by omega)
          refine ⟨v', hv', ?_⟩
          have harith : (i + 1) + j = i + (j + 1) := by ring
          rw [harith] at hd'
          exact hd'

/-! ## Claim C2 -/

/-- C2 counterexample: `parseLogData` neither right-pads a trailing partial
word (the two-character blob `"01"` decodes as the integer 1, not as the
right-padded word `0x0100…00 = 16^62`) nor decodes words beyond the declared
types (two full words with one declared type yield one value, not two). -/
theorem c2_counterexample :
    parseLogData (str "0x01") [str "uint256"] = some [str "1"] ∧
    decodeUint256 ('0' :: 'x' :: padEndL (str "01") 64 '0') =
      some (natToDecL (16 ^ 62)) ∧
    str "1" ≠ natToDecL (16 ^ 62) ∧
    (parseLogData
        ('0' :: 'x' :: (padStartL (str "1") 64 '0' ++ padStartL (str "2") 64 '0'))
        [str "uint256"]).map List.length = some 1 ∧
    (1 : ℕ) ≠ 2 :=
  ⟨by decide, by decide, by decide, by decide, by decide⟩

/-- C2 (amended): the `decodeData` action path behaves as the claim says —
it walks the (selector-stripped) data in 64-character strides, right-pads a
trailing partial word with `'0'` before interpretation, never drops it, and
decodes words beyond the declared types as unsigned integers.
`parseLogData`, however, produces exactly `min(#types, #strides)` values —
words beyond the declared types are dropped — and passes a trailing partial
stride to the per-type decoder unpadded. -/
theorem c2_amended :
    (∀ (body : Str) (types : List Str), body.all isHexDigitB = true →
      ∃ vals : List DecodedValue,
        (decodeData ('0' :: 'x' :: body) types).map Prod.snd = some vals ∧
        vals.length =
          ((if 8 ≤ body.length then body.drop 8 else body).length + 63) / 64 ∧
        (∀ i : ℕ,
          64 * i < (if 8 ≤ body.length then body.drop 8 else body).length →
          ∃ dv : DecodedValue, vals[i]? = some dv ∧
            dv.raw = '0' :: 'x' :: padEndL
              (((if 8 ≤ body.length then body.drop 8 else body).drop
                (64 * i)).take 64) 64 '0' ∧
            dv.type = (if (types[i]?).getD ([] : Str) = [] then str "unknown"
              else (types[i]?).getD ([] : Str)) ∧
            decodeDataItem dv.type
              (padEndL (((if 8 ≤ body.length then body.drop 8 else body).drop
                (64 * i)).take 64) 64 '0') = some dv.decoded ∧
            (types.length ≤ i → decodeUint256 dv.raw = some dv.decoded))) ∧
    (∀ (body : Str) (types : List Str), body.all isHexDigitB = true →
      ∃ vals : List Str, parseLogData ('0' :: 'x' :: body) types = some vals ∧
        vals.length = min types.length ((body.length + 63) / 64) ∧
        (∀ (j : ℕ) (t : Str), types[j]? = some t → 64 * j < body.length →
          ∃ v, vals[j]? = some v ∧
            decodeLogItem t ((body.drop (j * 64)).take 64) = some v)) := by
  constructor
  · intro body types hhex
    set paramData := if 8 ≤ body.length then body.drop 8 else body with hpd
    have hpdhex : paramData.all isHexDigitB = true := by
      rw [hpd]
      split
      · exact all_hex_drop _ _ hhex
      · exact hhex
    have hchall : ∀ ch ∈ chunk64 paramData, ch ≠ [] ∧ ch.all isHexDigitB = true := by
      intro ch hch
      obtain ⟨i, hi⟩ := List.mem_iff_getElem?.mp hch
      rw [chunk64_getElem?] at hi
      by_cases hgt : 64 * i < paramData.length
      · rw [if_pos hgt] at hi
        obtain rfl := Option.some.inj hi
        constructor
        · intro hnil
          have hl := congrArg List.length hnil
          simp only [List.length_take, List.length_drop, List.length_nil] at hl
          omega
        · exact all_hex_take _ _ (all_hex_drop _ _ hpdhex)
      · rw [if_neg hgt] at hi
        cases hi
    obtain ⟨vals, hvals, hlen, hidx⟩ := decodeDataLoop_spec (chunk64 paramData) types hchall
    refine ⟨vals, ?_, ?_, ?_⟩
    · have hdd : decodeData ('0' :: 'x' :: body) types =
          (decodeDataLoop (chunk64 (if 8 ≤ body.length then body.drop 8 else body))
            types).map
            (fun vals => (if 8 ≤ body.length then '0' :: 'x' :: body.take 8 else [],
              vals)) := rfl
      rw [hdd, ← hpd, hvals]
      rfl
    · rw [hlen, chunk64_length]
    · intro i hlt
      have hchi : (chunk64 paramData)[i]? =
          some ((paramData.drop (64 * i)).take 64) := by
        rw [chunk64_getElem?, if_pos hlt]
      obtain ⟨dv, hdv, hraw, htype, hdec⟩ := hidx i _ hchi
      refine ⟨dv, hdv, hraw, htype, hdec, ?_⟩
      intro hge
      have hnone : types[i]? = none := List.getElem?_eq_none hge
      rw [hnone] at htype
      simp at htype
      rw [htype] at hdec
      rw [decodeDataItem_unknown] at hdec
      rw [hraw]
      exact hdec
  · intro body types hhex
    by_cases hb : body = []
    · subst hb
      refine ⟨[], ?_, by simp, by intro j t _ h; simp at h⟩
      unfold parseLogData
      rw [if_pos (Or.inr str0x.symm)]
    · have hcond : ¬('0' :: 'x' :: body = [] ∨ '0' :: 'x' :: body = str "0x") := by
        rw [str0x]
        simp [hb]
      obtain ⟨vals, hvals, hlen, hidx⟩ := parseLogDataLoop_spec body hhex types 0
      refine ⟨vals, ?_, ?_, ?_⟩
      · unfold parseLogData
        have hclean : replaceFirst0x ('0' :: 'x' :: body) = body := rfl
        rw [if_neg hcond, hclean]
        exact hvals
      · rw [hlen]
        simp
      · intro j t hj hlt
        obtain ⟨v, hv, hd⟩ := hidx j t hj (by simpa using hlt)
        refine ⟨v, hv, ?_⟩
        simpa using hd

/-- Closed witness for the quantified clauses of `c2_amended`: a 66-character
hex body (one full word and a trailing partial word) with one declared
type. -/
theorem c2_amended_witness :
    ((padStartL (str "1") 64 '0' ++ str "ff").all isHexDigitB = true ∧
      (∃ vals : List DecodedValue,
        (decodeData ('0' :: 'x' :: (padStartL (str "1") 64 '0' ++ str "ff"))
          [str "uint256"]).map Prod.snd = some vals ∧
        vals.length =
          ((if 8 ≤ (padStartL (str "1") 64 '0' ++ str "ff").length
            then (padStartL (str "1") 64 '0' ++ str "ff").drop 8
            else (padStartL (str "1") 64 '0' ++ str "ff")).length + 63) / 64 ∧
        (∀ i : ℕ,
          64 * i < (if 8 ≤ (padStartL (str "1") 64 '0' ++ str "ff").length
            then (padStartL (str "1") 64 '0' ++ str "ff").drop 8
            else (padStartL (str "1") 64 '0' ++ str "ff")).length →
          ∃ dv : DecodedValue, vals[i]? = some dv ∧
            dv.raw = '0' :: 'x' :: padEndL
              (((if 8 ≤ (padStartL (str "1") 64 '0' ++ str "ff").length
                then (padStartL (str "1") 64 '0' ++ str "ff").drop 8
                else (padStartL (str "1") 64 '0' ++ str "ff")).drop
                  (64 * i)).take 64) 64 '0' ∧
            dv.type = (if (([str "uint256"][i]?).getD ([] : Str)) = []
              then str "unknown" else ([str "uint256"][i]?).getD ([] : Str)) ∧
            decodeDataItem dv.type
              (padEndL (((if 8 ≤ (padStartL (str "1") 64 '0' ++ str "ff").length
                then (padStartL (str "1") 64 '0' ++ str "ff").drop 8
                else (padStartL (str "1") 64 '0' ++ str "ff")).drop
                  (64 * i)).take 64) 64 '0') = some dv.decoded ∧
            (([str "uint256"] : List Str).length ≤ i →
              decodeUint256 dv.raw = some dv.decoded)))) ∧
    ((padStartL (str "1") 64 '0' ++ str "ff").all isHexDigitB = true ∧
      ∃ vals : List Str,
        parseLogData ('0' :: 'x' :: (padStartL (str "1") 64 '0' ++ str "ff"))
          [str "uint256"] = some vals ∧
        vals.length = min ([str "uint256"] : List Str).length
          (((padStartL (str "1") 64 '0' ++ str "ff").length + 63) / 64) ∧
        (∀ (j : ℕ) (t : Str), ([str "uint256"] : List Str)[j]? = some t →
          64 * j < (padStartL (str "1") 64 '0' ++ str "ff").length →
          ∃ v, vals[j]? = some v ∧
            decodeLogItem t
              (((padStartL (str "1") 64 '0' ++ str "ff").drop (j * 64)).take 64) =
              some v)) :=
  ⟨⟨by decide, c2_amended.1 (padStartL (str "1") 64 '0' ++ str "ff")
      [str "uint256"] (by decide)⟩,
    ⟨by decide, c2_amended.2 (padStartL (str "1") 64 '0' ++ str "ff")
      [str "uint256"] (by decide)⟩⟩

/-! ## Claim C8: helper lemmas -/

theorem parseIntHexGo_eq (l : Str) :
    ∀ acc : ℕ, l.all isHexDigitB = true →
      parseDigitsAux hexCharVal? 16 l acc = some (parseIntHex.go l acc) := by
  induction l with
  | nil => intro acc _; rfl
  | cons c cs ih =>
    intro acc h
    simp only [List.all_cons, Bool.and_eq_true] at h
    obtain ⟨v, hv⟩ := hexCharVal?_isSome c h.1
    simp only [parseDigitsAux, parseIntHex.go, hv]
    exact ih _ h.2

/-- On a non-empty string of hex digits, `parseInt(_, 16)` and the `BigInt`
hex parser agree. -/
theorem parseIntHex_eq_parseDigits (l : Str) (hne : l ≠ [])
    (hhex : l.all isHexDigitB = true) :
    parseIntHex l = parseDigits hexCharVal? 16 l := by
  unfold parseIntHex parseDigits
  rw [if_neg (take2_ne_0x l hhex), if_neg hne]
  match l, hne with
  | c :: cs, _ =>
    simp only [List.all_cons, Bool.and_eq_true] at hhex
    obtain ⟨v, hv⟩ := hexCharVal?_isSome c hhex.1
    rw [parseIntHexGo_eq (c :: cs) 0 (by simp [hhex.1, hhex.2])]
    simp [hv]

theorem hexWord_all_hex (n : ℕ) : (hexWord n).all isHexDigitB = true := by
  unfold hexWord padStartL
  rw [List.all_append, natToHexL_all_hex n, Bool.and_true, List.all_eq_true]
  intro c hc
  rw [List.eq_of_mem_replicate hc]
  decide

theorem hexWord_ne_nil (n : ℕ) : hexWord n ≠ [] := by
  unfold hexWord padStartL
  simp [natToHexL_ne_nil n]

theorem hexWord_length (n : ℕ) (h : n < 16 ^ 64) : (hexWord n).length = 64 :=
  padStartL_length _ 64 '0' (natToHexL_length_le n 64 (by omega) h)

/-- Reading back a left-zero-padded hex word with `parseInt(_, 16)` recovers
its value. -/
theorem parseIntHex_hexWord (n : ℕ) : parseIntHex (hexWord n) = some n := by
  rw [parseIntHex_eq_parseDigits _ (hexWord_ne_nil n) (hexWord_all_hex n)]
  unfold hexWord padStartL parseDigits
  rw [if_neg (by simp [natToHexL_ne_nil n])]
  rw [parseDigitsAux_zeros]
  have := parseDigits_natToHexL n
  unfold parseDigits at this
  rwa [if_neg (natToHexL_ne_nil n)] at this

/-- Characterization of `decodeString`'s parse loop on even-length hex data:
it decodes every byte pair, keeping exactly the values in `(0, 128)`. -/
theorem decodeStringLoop_eq :
    ∀ s : Str, s.all isHexDigitB = true → 2 ∣ s.length →
      decodeStringLoop s =
        ((bufferFromHex s).filter (fun b => decide (0 < b ∧ b < 128))).map
          Char.ofNat
  | [] , _, _ => by simp [decodeStringLoop, bufferFromHex]
  | [c], _, hpar => by simp at hpar
  | c1 :: c2 :: rest, hhex, hpar => by
    simp only [List.all_cons, Bool.and_eq_true] at hhex
    obtain ⟨h1, h2, hrest⟩ := hhex
    obtain ⟨v1, hv1⟩ := hexCharVal?_isSome c1 h1
    obtain ⟨v2, hv2⟩ := hexCharVal?_isSome c2 h2
    have hp : parseIntHex [c1, c2] = some (16 * v1 + v2) := by
      unfold parseIntHex
      rw [if_neg (take2_ne_0x [c1, c2] (by simp [h1, h2]))]
      simp only [parseIntHex.go, hv1, hv2, Option.isSome_some, if_pos]
      have harith : (0 * 16 + v1) * 16 + v2 = 16 * v1 + v2 := by ring
      simp only [harith]
    have hbuf : bufferFromHex (c1 :: c2 :: rest) =
        (16 * v1 + v2) :: bufferFromHex rest := by
      simp [bufferFromHex, hv1, hv2]
    have hpareven : 2 ∣ rest.length := by
      simp only [List.length_cons] at hpar ⊢
      omega
    have ih := decodeStringLoop_eq rest hrest hpareven
    rw [hbuf]
    simp only [decodeStringLoop, hp]
    by_cases hc : 0 < 16 * v1 + v2 ∧ 16 * v1 + v2 < 128
    · rw [if_pos hc]
      simp [List.filter_cons, hc.1, hc.2, ih]
    · have hcb : ¬((fun b => decide (0 < b ∧ b < 128)) (16 * v1 + v2) = true) := by
        simpa using hc
      have hfil : List.filter (fun b => decide (0 < b ∧ b < 128))
          ((16 * v1 + v2) :: bufferFromHex rest) =
          List.filter (fun b => decide (0 < b ∧ b < 128)) (bufferFromHex rest) := by
        rw [List.filter_cons, if_neg hcb]
      rw [if_neg hc, hfil]
      exact ih

/-- On a well-formed single-string return value — offset word 32, length
word `L`, `2·L`-character payload — the token-URI decode follows the
offset to the length word and returns the raw payload bytes (no null-byte
dropping, no trimming). -/
theorem tokenURIDecodeCore_wellFormed (L : ℕ) (payload : Str)
    (hL : L < 2 ^ 53) (hlen : payload.length = 2 * L) :
    tokenURIDecodeCore (hexWord 32 ++ hexWord L ++ payload) =
      bufferFromHex payload := by
  have hWlen : (hexWord L).length = 64 :=
    hexWord_length L (lt_trans hL (by norm_num))
  have h32len : (hexWord 32).length = 64 := by decide
  have hBlen : (hexWord 32 ++ hexWord L ++ payload).length = 128 + 2 * L := by
    simp only [List.length_append, h32len, hWlen, hlen]
  have h128 : (hexWord 32 ++ hexWord L).length = 128 := by
    simp only [List.length_append, h32len, hWlen]
  have hs1 : sliceL (hexWord 32 ++ hexWord L ++ payload) 0 64 = hexWord 32 := by
    unfold sliceL
    rw [List.drop_zero, Nat.sub_zero, List.append_assoc, List.take_left' h32len]
  have hs2 : sliceL (hexWord 32 ++ hexWord L ++ payload) (32 * 2) (32 * 2 + 64) =
      hexWord L := by
    unfold sliceL
    rw [show (32 * 2 : ℕ) = 64 by norm_num, Nat.add_sub_cancel_left,
      List.append_assoc, List.drop_left' h32len, List.take_left' hWlen]
  have hs3 : sliceL (hexWord 32 ++ hexWord L ++ payload) (32 * 2 + 64)
      (32 * 2 + 64 + L * 2) = payload := by
    unfold sliceL
    rw [Nat.add_sub_cancel_left, show (32 * 2 + 64 : ℕ) = 128 by norm_num,
      List.drop_left' h128,
      show L * 2 = payload.length by omega, List.take_length]
  unfold tokenURIDecodeCore
  rw [if_neg (by omega), hs1, parseIntHex_hexWord 32]
  dsimp only
  rw [hs2, parseIntHex_hexWord L]
  dsimp only
  rw [hs3]

/-- The name/symbol decode never consults the first word: for ANY
64-character first word, the byte-length is read from characters 64–128 and
the payload from character 128 on, with null bytes dropped (but no
trimming). -/
theorem nameSymbolDecodeCore_wellFormed (w : Str) (L : ℕ) (payload : Str)
    (hw : w.length = 64) (hL : L < 2 ^ 53) (hlen : payload.length = 2 * L) :
    nameSymbolDecodeCore (w ++ hexWord L ++ payload) =
      (bufferFromHex payload).filter (· ≠ 0) := by
  have hWlen : (hexWord L).length = 64 :=
    hexWord_length L (lt_trans hL (by norm_num))
  have hBlen : (w ++ hexWord L ++ payload).length = 128 + 2 * L := by
    simp only [List.length_append, hw, hWlen, hlen]
  have h128 : (w ++ hexWord L).length = 128 := by
    simp only [List.length_append, hw, hWlen]
  have hs2 : sliceL (w ++ hexWord L ++ payload) 64 128 = hexWord L := by
    unfold sliceL
    rw [show (128 - 64 : ℕ) = 64 by norm_num, List.append_assoc,
      List.drop_left' hw, List.take_left' hWlen]
  have hs3 : sliceL (w ++ hexWord L ++ payload) 128 (128 + L * 2) = payload := by
    unfold sliceL
    rw [Nat.add_sub_cancel_left, List.drop_left' h128,
      show L * 2 = payload.length by omega, List.take_length]
  unfold nameSymbolDecodeCore
  rw [if_neg (by omega), hs2, parseIntHex_hexWord L]
  dsimp only
  rw [hs3]

/-! ## Claim C8 -/

set_option maxRecDepth 10000 in
/-- C8 counterexample: on the standard encoding of the two-byte string
`"AB"` (offset word 32, length word 2, payload `4142` zero-padded), the
offset/length algorithm the claim describes yields `"AB"` (as
`tokenURIDecode` shows at the byte level), but `decodeString` — which the
claim includes — ignores the offset/length structure and decodes every
in-range byte of the whole blob, returning `"\x02AB"` (the offset byte
`0x20` is a space and is trimmed; the length byte `0x02` survives). -/
theorem c8_counterexample :
    tokenURIDecode ('0' :: 'x' ::
        (hexWord 32 ++ hexWord 2 ++ (str "4142" ++ List.replicate 60 '0'))) =
      [65, 66] ∧
    decodeString ('0' :: 'x' ::
        (hexWord 32 ++ hexWord 2 ++ (str "4142" ++ List.replicate 60 '0'))) =
      str "\x02AB" ∧
    str "\x02AB" ≠ str "AB" :=
  ⟨by decide, by decide, by decide⟩

/-- C8 (amended): the token-URI decode alone implements the full
offset-then-length walk the claim describes, but performs no null-byte
dropping and no trimming; the name/symbol decode never reads the offset
word — it assumes the payload sits at a fixed position, reading the
byte-length from characters 64–128 and the payload from character 128 —
and drops null bytes but does not trim; and `decodeString` performs no
offset/length walk at all: it decodes every byte pair of the whole blob
whose value lies strictly between 0 and 128 as an ASCII character and trims
the result. -/
theorem c8_amended :
    (∀ (L : ℕ) (payload : Str), L < 2 ^ 53 → payload.length = 2 * L →
      tokenURIDecode ('0' :: 'x' :: (hexWord 32 ++ hexWord L ++ payload)) =
        bufferFromHex payload) ∧
    (∀ (w : Str) (L : ℕ) (payload : Str), w.length = 64 → L < 2 ^ 53 →
      payload.length = 2 * L →
      nameSymbolDecode ('0' :: 'x' :: (w ++ hexWord L ++ payload)) =
        (bufferFromHex payload).filter (· ≠ 0)) ∧
    (∀ s : Str, s.all isHexDigitB = true → 2 ∣ s.length →
      decodeString ('0' :: 'x' :: s) =
        jsTrim (((bufferFromHex s).filter
          (fun b => decide (0 < b ∧ b < 128))).map Char.ofNat)) := by
  refine ⟨?_, ?_, ?_⟩
  · intro L payload hL hlen
    have hBlen : (hexWord 32 ++ hexWord L ++ payload).length = 128 + 2 * L := by
      simp only [List.length_append, hexWord_length 32 (by norm_num),
        hexWord_length L (lt_trans hL (by norm_num)), hlen]
    have hBne : hexWord 32 ++ hexWord L ++ payload ≠ [] := by
      intro h
      rw [h] at hBlen
      simp only [List.length_nil] at hBlen
      omega
    have hcond : ¬('0' :: 'x' :: (hexWord 32 ++ hexWord L ++ payload) = [] ∨
        '0' :: 'x' :: (hexWord 32 ++ hexWord L ++ payload) = str "0x" ∨
        ('0' :: 'x' :: (hexWord 32 ++ hexWord L ++ payload)).length ≤ 2) := by
      rintro (h | h | h)
      · exact List.cons_ne_nil _ _ h
      · rw [str0x] at h
        injection h with h1 h2
        injection h2 with h3 h4
        exact hBne h4
      · rw [List.length_cons, List.length_cons, hBlen] at h
        omega
    unfold tokenURIDecode
    rw [if_neg hcond]
    exact tokenURIDecodeCore_wellFormed L payload hL hlen
  · intro w L payload hw hL hlen
    have hBlen : (w ++ hexWord L ++ payload).length = 128 + 2 * L := by
      simp only [List.length_append, hw,
        hexWord_length L (lt_trans hL (by norm_num)), hlen]
    have hBne : w ++ hexWord L ++ payload ≠ [] := by
      intro h
      rw [h] at hBlen
      simp only [List.length_nil] at hBlen
      omega
    have hcond : ¬('0' :: 'x' :: (w ++ hexWord L ++ payload) = [] ∨
        '0' :: 'x' :: (w ++ hexWord L ++ payload) = str "0x" ∨
        ('0' :: 'x' :: (w ++ hexWord L ++ payload)).length ≤ 2) := by
      rintro (h | h | h)
      · exact List.cons_ne_nil _ _ h
      · rw [str0x] at h
        injection h with h1 h2
        injection h2 with h3 h4
        exact hBne h4
      · rw [List.length_cons, List.length_cons, hBlen] at h
        omega
    unfold nameSymbolDecode
    rw [if_neg hcond]
    exact nameSymbolDecodeCore_wellFormed w L payload hw hL hlen
  · intro s hhex hpar
    by_cases hs : s = []
    · subst hs
      decide
    · have hcond : ¬('0' :: 'x' :: s = [] ∨ '0' :: 'x' :: s = str "0x") := by
        rw [str0x]
        simp [hs]
      unfold decodeString
      rw [if_neg hcond]
      have hclean : replaceFirst0x ('0' :: 'x' :: s) = s := rfl
      rw [hclean, decodeStringLoop_eq s hhex hpar]

set_option maxRecDepth 10000 in
/-- Closed witness for the quantified clauses of `c8_amended`, with a
payload containing a null byte (`0x41 0x00`): the token-URI decode keeps
it, the name/symbol decode drops it, and `decodeString` on a plain blob
decodes its in-range bytes. -/
theorem c8_amended_witness :
    (((2 : ℕ) < 2 ^ 53 ∧ (str "4100").length = 2 * 2) ∧
      tokenURIDecode ('0' :: 'x' :: (hexWord 32 ++ hexWord 2 ++ str "4100")) =
        bufferFromHex (str "4100")) ∧
    (((hexWord 99).length = 64 ∧ (2 : ℕ) < 2 ^ 53 ∧ (str "4100").length = 2 * 2) ∧
      nameSymbolDecode ('0' :: 'x' :: (hexWord 99 ++ hexWord 2 ++ str "4100")) =
        (bufferFromHex (str "4100")).filter (· ≠ 0)) ∧
    (((str "4142").all isHexDigitB = true ∧ 2 ∣ (str "4142").length) ∧
      decodeString ('0' :: 'x' :: str "4142") =
        jsTrim (((bufferFromHex (str "4142")).filter
          (fun b => decide (0 < b ∧ b < 128))).map Char.ofNat)) :=
  ⟨⟨⟨by decide, by decide⟩, c8_amended.1 2 (str "4100") (by decide) (by decide)⟩,
    ⟨⟨by decide, by decide, by decide⟩,
      c8_amended.2.1 (hexWord 99) 2 (str "4100") (by decide) (by decide) (by decide)⟩,
    ⟨⟨by decide, by decide⟩,
      c8_amended.2.2 (str "4142") (by decide) (by decide)⟩⟩

end Cronos

